import Mathlib

/-!
Verification of the R-tree spatial index in src/rtree/rtree.py and the
range query in src/05-nested-loop/implementation.py.

Coordinates and radii are modelled as integers: the code performs no
division on coordinates, only min, max, addition, subtraction,
multiplication and comparison, so every quantity involved (including
areas and enlargements) is computed exactly, and every argument below
uses only ordered-ring reasoning that holds verbatim over the rationals
or reals as well.

The Python tree is a mutable graph of nodes with parent back-references;
`update_mbr` recomputes a box and propagates to the parent, and the
insert/delete walks mutate nodes in place.  The embedding replaces this
with a purely functional tree: every operation rebuilds the spine it
touches, recomputing each cached box at the moment the source would have
recomputed it last.  The correspondence of each function to its source
is noted at its definition.
-/

namespace RSpec

/-- Axis-aligned bounding rectangle, mirroring `MinimalBoundingRectangle`. -/
structure MBR where
  x1 : ℤ
  y1 : ℤ
  x2 : ℤ
  y2 : ℤ
deriving DecidableEq, Repr

/-- A 2D point with extent, mirroring `Point` (a circle). -/
structure Point where
  x : ℤ
  y : ℤ
  radius : ℤ
deriving DecidableEq, Repr

/-- Derived bounding box of a point, as computed in `Point.__init__`. -/
def Point.mbrOf (p : Point) : MBR :=
  ⟨p.x - p.radius, p.y - p.radius, p.x + p.radius, p.y + p.radius⟩

/-- `MinimalBoundingRectangle.includes`: the point with its extent lies
inside the box, non-strict on both axes. -/
def MBR.includesB (b : MBR) (p : Point) : Bool :=
  decide (b.x1 ≤ p.x - p.radius) && decide (p.x + p.radius ≤ b.x2) &&
  decide (b.y1 ≤ p.y - p.radius) && decide (p.y + p.radius ≤ b.y2)

/-- `MinimalBoundingRectangle.area`. -/
def MBR.areaQ (b : MBR) : ℤ :=
  max 0 (b.x2 - b.x1) * max 0 (b.y2 - b.y1)

/-- `MinimalBoundingRectangle.enlarged_area_with_point`. -/
def MBR.enlargedAreaQ (b : MBR) (p : Point) : ℤ :=
  let nx1 := min b.x1 (p.x - p.radius)
  let ny1 := min b.y1 (p.y - p.radius)
  let nx2 := max b.x2 (p.x + p.radius)
  let ny2 := max b.y2 (p.y + p.radius)
  max 0 (nx2 - nx1) * max 0 (ny2 - ny1)

/-- `MinimalBoundingRectangle.intersects`: strict separation test, so
touching edges do not count as intersecting. -/
def MBR.intersectsB (b o : MBR) : Bool :=
  !(decide (b.x2 ≤ o.x1) || decide (o.x2 ≤ b.x1) ||
    decide (b.y2 ≤ o.y1) || decide (o.y2 ≤ b.y1))

/-- Componentwise box containment, `out` covers `inn`.  Used only in the
well-formedness predicate, not a source function. -/
def MBR.coversB (out inn : MBR) : Bool :=
  decide (out.x1 ≤ inn.x1) && decide (out.y1 ≤ inn.y1) &&
  decide (inn.x2 ≤ out.x2) && decide (inn.y2 ≤ out.y2)

/-- Union of two boxes (componentwise min and max), the fold step of
`Node.update_mbr`. -/
def MBR.unionB (a b : MBR) : MBR :=
  ⟨min a.x1 b.x1, min a.y1 b.y1, max a.x2 b.x2, max a.y2 b.y2⟩

mutual
/-- A tree node: a children list plus the cached box, mirroring `Node`.
The cache is `none` when the node is childless (Python `None`).  The
degenerate box Python builds when a nonempty node has only boxless
children (all coordinates infinite) is also modelled as `none`: that box
is the neutral element of the union fold and fails every intersection
and containment test, exactly like a skipped child, and such nodes are
detached or recomputed before any other code can observe the cache. -/
inductive RNode where
  | mk (children : ChildList) (mbr : Option MBR) : RNode
deriving DecidableEq, Repr

/-- The heterogeneous children list of a node: Python stores `Point` and
`Node` children in one Python list and discriminates by `isinstance`. -/
inductive ChildList where
  | nil : ChildList
  | consP (p : Point) (rest : ChildList) : ChildList
  | consN (n : RNode) (rest : ChildList) : ChildList
deriving DecidableEq, Repr
end

namespace ChildList

/-- Number of children, `len(node.children)`. -/
def numK : ChildList → ℕ
  | .nil => 0
  | .consP _ r => numK r + 1
  | .consN _ r => numK r + 1

/-- `Node.is_leaf` applied to a children list: nonempty and the first
child is a `Point`. -/
def isLeafK : ChildList → Bool
  | .consP _ _ => true
  | _ => false

def isNil : ChildList → Bool
  | .nil => true
  | _ => false

/-- Append a point child at the end (`children.append(point)`). -/
def snocP : ChildList → Point → ChildList
  | .nil, p => .consP p .nil
  | .consP q r, p => .consP q (snocP r p)
  | .consN n r, p => .consN n (snocP r p)

/-- Append a node child at the end (`children.append(new_node)`). -/
def snocN : ChildList → RNode → ChildList
  | .nil, m => .consN m .nil
  | .consP q r, m => .consP q (snocN r m)
  | .consN n r, m => .consN n (snocN r m)

/-- Value-equality membership test of a point among the children,
`point in node.children`; a `Node` child is never equal to a `Point`. -/
def containsP : ChildList → Point → Bool
  | .nil, _ => false
  | .consP q r, p => decide (q = p) || containsP r p
  | .consN _ r, p => containsP r p

/-- Remove the first child equal to the point,
`node.children.remove(point)`. -/
def eraseP : ChildList → Point → ChildList
  | .nil, _ => .nil
  | .consP q r, p => if q = p then r else .consP q (eraseP r p)
  | .consN n r, p => .consN n (eraseP r p)

/-- All children are points. -/
def allPts : ChildList → Bool
  | .nil => true
  | .consP _ r => allPts r
  | .consN _ _ => false

/-- All children are nodes. -/
def allNodes : ChildList → Bool
  | .nil => true
  | .consP _ _ => false
  | .consN _ r => allNodes r

end ChildList

open ChildList

/-- Cached box of a node. -/
def RNode.mbrN : RNode → Option MBR
  | .mk _ m => m

/-- Children list of a node. -/
def RNode.kids : RNode → ChildList
  | .mk cs _ => cs

mutual
/-- `Node.all_points`: left-to-right traversal yielding the stored
points, recursing into node children. -/
def RNode.pts : RNode → List Point
  | .mk cs _ => ChildList.ptsK cs

def ChildList.ptsK : ChildList → List Point
  | .nil => []
  | .consP p r => p :: ChildList.ptsK r
  | .consN n r => RNode.pts n ++ ChildList.ptsK r
end

/-- Fold step of the box recomputation: merge one box into the running
union (`none` is the initial state of the Python min/max accumulators). -/
def mergeOpt : Option MBR → MBR → Option MBR
  | none, b => some b
  | some a, b => some (a.unionB b)

/-- The box recomputation of `Node.update_mbr`, restricted to one node:
union the derived boxes of point children and the cached boxes of node
children, skipping boxless node children; `none` when nothing was
collected.  (The `ValueError` Python raises for a point child of a
non-leaf node is not modelled: reachable trees are homogeneous, which is
proved below as part of well-formedness.)  Upward propagation is
realised by the callers, which recompute every node of the spine they
touch in the same order the source does. -/
def recomputeGo : ChildList → Option MBR → Option MBR
  | .nil, acc => acc
  | .consP p r, acc => recomputeGo r (mergeOpt acc p.mbrOf)
  | .consN n r, acc =>
    match n.mbrN with
    | some b => recomputeGo r (mergeOpt acc b)
    | none => recomputeGo r acc

def recompute (cs : ChildList) : Option MBR := recomputeGo cs none

/-! ### Stable sort

Python `list.sort(key=...)` is a stable sort by the key.  A stable sort
with respect to a fixed total preorder is unique as a function of the
input list, so the structurally recursive insertion sort below produces
exactly the list Python produces; it also evaluates inside the kernel,
which the concrete traces need. -/

def insSorted (le : α → α → Bool) (a : α) : List α → List α
  | [] => [a]
  | b :: l => if le a b then a :: b :: l else b :: insSorted le a l

def stableSort (le : α → α → Bool) : List α → List α
  | [] => []
  | a :: l => insSorted le a (stableSort le l)

/-- Comparator for `points.sort(key=lambda p: p.x)`. -/
def xLe (p q : Point) : Bool := decide (p.x ≤ q.x)

/-- Comparator for `sl.sort(key=lambda p: p.y)`. -/
def yLe (p q : Point) : Bool := decide (p.y ≤ q.y)

/-! ### Insertion -/

/-- One scan of `_choose_leaf` over the children of an internal node:
running state is the chosen index and the best increase seen so far
(`none` standing for the initial infinity).  A child whose box includes
the point is selected unconditionally, even over an earlier such child;
otherwise the child with the strictly smallest enlargement wins, ties
keeping the earlier child.  Point children and boxless node children get
an infinite increase and are never selected. -/
def chooseGo (p : Point) : ChildList → ℕ → Option ℕ → Option ℤ → Option ℕ
  | .nil, _, chosen, _ => chosen
  | .consP _ r, i, chosen, best => chooseGo p r (i + 1) chosen best
  | .consN n r, i, chosen, best =>
    match n.mbrN with
    | none => chooseGo p r (i + 1) chosen best
    | some b =>
      if b.includesB p then chooseGo p r (i + 1) (some i) (some 0)
      else
        let inc := b.enlargedAreaQ p - b.areaQ
        match best with
        | none => chooseGo p r (i + 1) (some i) (some inc)
        | some bv =>
          if inc < bv then chooseGo p r (i + 1) (some i) (some inc)
          else chooseGo p r (i + 1) chosen best

def chooseScan (cs : ChildList) (p : Point) : Option ℕ :=
  chooseGo p cs 0 none none

/-- Sort key of `_split_node`: x for a point child, cached `x1` for a
node child, infinity (modelled `none`) for a boxless node child. -/
def splitKey : Sum Point RNode → Option ℤ
  | .inl p => some p.x
  | .inr n => (n.mbrN).map (·.x1)

def splitLe (a b : Sum Point RNode) : Bool :=
  match splitKey a, splitKey b with
  | _, none => true
  | none, some _ => false
  | some x, some y => decide (x ≤ y)

def toListC : ChildList → List (Sum Point RNode)
  | .nil => []
  | .consP p r => .inl p :: toListC r
  | .consN n r => .inr n :: toListC r

def ofListC : List (Sum Point RNode) → ChildList
  | [] => .nil
  | .inl p :: r => .consP p (ofListC r)
  | .inr n :: r => .consN n (ofListC r)

/-- `_split_node`: sort the children by leading x, cut in half (lower
half stays, upper half forms the new sibling), recompute both boxes. -/
def splitNode (n : RNode) : RNode × RNode :=
  let l := stableSort splitLe (toListC n.kids)
  let half := l.length / 2
  let left := ofListC (l.take half)
  let right := ofListC (l.drop half)
  (RNode.mk left (recompute left), RNode.mk right (recompute right))

mutual
/-- `insert` below the root, fusing `_choose_leaf`, the appends, the box
recomputation and the splitting walk of `_adjust_tree` into one
bottom-up pass.  At a leaf (or childless node) the point is appended and
the box recomputed; on the way back up every node of the spine is
recomputed (as the repeated `update_mbr` calls do) and split when it
exceeds capacity, the new sibling being appended at the end of the
parent children list.  Returns the rebuilt node, or the two halves if
this level split.  (For capacity below 2 Python would keep splitting new
roots forever; the theorems only use capacities the spec admits.  The
`assert` of `_choose_leaf`, unreachable for homogeneous nodes, is
modelled by returning the node unchanged.) -/
def insNode (C : ℕ) (n : RNode) (p : Point) : Sum RNode (RNode × RNode) :=
  match n with
  | .mk cs _ =>
    if cs.isLeafK || cs.isNil then
      let cs' := cs.snocP p
      let n' := RNode.mk cs' (recompute cs')
      if C < cs'.numK then .inr (splitNode n') else .inl n'
    else
      match chooseScan cs p with
      | none => .inl n
      | some i =>
        let cs2 := insInKids C cs p i
        let n' := RNode.mk cs2 (recompute cs2)
        if C < cs2.numK then .inr (splitNode n') else .inl n'

/-- Descend into the chosen child; when the child splits, the lower half
replaces it in place and the upper half is appended at the end of this
children list. -/
def insInKids (C : ℕ) (cs : ChildList) (p : Point) (i : ℕ) : ChildList :=
  match cs, i with
  | .nil, _ => .nil
  | .consP q r, 0 => .consP q r
  | .consN n r, 0 =>
    match insNode C n p with
    | .inl n' => .consN n' r
    | .inr (a, b) => .consN a (r.snocN b)
  | .consP q r, j + 1 => .consP q (insInKids C r p j)
  | .consN n r, j + 1 => .consN n (insInKids C r p j)
end

/-- `RTree.insert`: insert at the root; if the root splits, a new root
with the two halves is created and its box recomputed. -/
def insertOp (C : ℕ) (root : RNode) (p : Point) : RNode :=
  match insNode C root p with
  | .inl r => r
  | .inr (a, b) =>
    let cs : ChildList := .consN a (.consN b .nil)
    RNode.mk cs (recompute cs)

/-! ### Deletion -/

mutual
/-- `_find_leaf`, the removal, `leaf.update_mbr` and `_condense_tree`
fused into one pass.  The search descends, in order, into node children
whose cached box strictly intersects the derived box of the point, with
backtracking; at a leaf the point is removed by value (first occurrence)
and the leaf box recomputed.  On the way back up every node of the found
spine gets the box Python computes during the upward `update_mbr`
propagation, namely the union taken while the underfull child is still
attached; the condense walk then detaches a child exactly when its child
count is below `C / 2` (floor division, `self.node_capacity // 2`),
queueing the points of its subtree after those queued deeper.  Returns
`none` when the point is not found. -/
def delFindN (C : ℕ) (n : RNode) (p : Point) :
    Option (RNode × List Point) :=
  match n with
  | .mk cs _ =>
    if cs.isNil then none
    else if cs.isLeafK then
      if cs.containsP p then
        let cs' := cs.eraseP p
        some (RNode.mk cs' (recompute cs'), [])
      else none
    else
      match delFindKids C cs p with
      | none => none
      | some (withX, after, q) =>
        some (RNode.mk after (recompute withX), q)

/-- Walk the children: the first node child whose box intersects the
point and in which the recursive search succeeds is the path child.
Returns the children with the rebuilt child kept in place (used for the
box recomputation, which the source performs before the detach), the
children after the detach decision, and the reinsertion queue. -/
def delFindKids (C : ℕ) (cs : ChildList) (p : Point) :
    Option (ChildList × ChildList × List Point) :=
  match cs with
  | .nil => none
  | .consP q r =>
    match delFindKids C r p with
    | none => none
    | some (w, a, qu) => some (.consP q w, .consP q a, qu)
  | .consN n r =>
    match n.mbrN with
    | none =>
      match delFindKids C r p with
      | none => none
      | some (w, a, qu) => some (.consN n w, .consN n a, qu)
    | some b =>
      if b.intersectsB p.mbrOf then
        match delFindN C n p with
        | some (n', qu) =>
          if n'.kids.numK < C / 2 then
            some (.consN n' r, r, qu ++ n'.pts)
          else
            some (.consN n' r, .consN n' r, qu)
        | none =>
          match delFindKids C r p with
          | none => none
          | some (w, a, qu) => some (.consN n w, .consN n a, qu)
      else
        match delFindKids C r p with
        | none => none
        | some (w, a, qu) => some (.consN n w, .consN n a, qu)
end

/-- The final root-collapse step of `RTree.delete`: a root with exactly
one node child is replaced by that child, whose box is recomputed. -/
def collapseRoot (r : RNode) : RNode :=
  match r with
  | .mk (.consN m .nil) _ =>
    match m with
    | .mk cs _ => RNode.mk cs (recompute cs)
  | _ => r

/-- `RTree.delete`: find and remove the point (no-op when absent),
condense, reinsert the queued points in reverse collection order via the
standard insert, recompute the root box, then collapse the root.  The
collapse runs even when nothing was found. -/
def deleteOp (C : ℕ) (root : RNode) (p : Point) : RNode :=
  match delFindN C root p with
  | none => collapseRoot root
  | some (r', queue) =>
    let r2 := queue.reverse.foldl (fun t q => insertOp C t q) r'
    let r3 := RNode.mk r2.kids (recompute r2.kids)
    collapseRoot r3

/-! ### Bulk load -/

/-- Ceiling division for positive divisor, `math.ceil(a / b)`. -/
def ceilDiv (a b : ℕ) : ℕ := (a + b - 1) / b

/-- Least `k` with `n ≤ k * k`, by bounded search from below. -/
def ceilSqrtGo (n : ℕ) : ℕ → ℕ → ℕ
  | 0, k => k
  | fuel + 1, k => if n ≤ k * k then k else ceilSqrtGo n fuel (k + 1)

/-- Ceiling of the real square root, `math.ceil(n ** 0.5)` (exact for
the magnitudes involved): the least `k` with `n ≤ k * k`. -/
def ceilSqrt (n : ℕ) : ℕ := ceilSqrtGo n n 0

/-- Split a list into consecutive groups of the given sizes, the index
walk of the level-building loop. -/
def splitSizes : List α → List ℕ → List (List α)
  | _, [] => []
  | l, s :: rest => l.take s :: splitSizes (l.drop s) rest

/-- Consecutive chunks of at most `C` elements,
`for i in range(0, len(sl), C)`.  Fuel is the list length, sufficient
whenever `C ≥ 1`. -/
def chunksGo (C : ℕ) : ℕ → List α → List (List α)
  | _, [] => []
  | 0, _ :: _ => []
  | fuel + 1, a :: l => (a :: l.take (C - 1)) :: chunksGo C fuel (l.drop (C - 1))

def chunks (C : ℕ) (l : List α) : List (List α) := chunksGo C l.length l

def mkLeaf (grp : List Point) : RNode :=
  let cs := ofListC (grp.map .inl)
  RNode.mk cs (recompute cs)

/-- The `while len(current_nodes) != 1` loop of `bulk_load`: group the
current level into `ceil(len / C)` parents of sizes differing by at most
one, recompute each parent box, repeat.  Explicit fuel: exhaustion
models nontermination of the source loop (the level count never reaches
one when `C = 1`).  An empty level would divide by zero in the source;
it is unreachable and modelled as exhaustion. -/
def buildLevels (C : ℕ) : ℕ → List RNode → Option RNode
  | 0, _ => none
  | _ + 1, [n] => some n
  | _ + 1, [] => none
  | fuel + 1, ns =>
    let total := ns.length
    let numNew := ceilDiv total C
    let base := total / numNew
    let rem := total % numNew
    let sizes := (List.range numNew).map (fun i => base + if i < rem then 1 else 0)
    let parents := (splitSizes ns sizes).map (fun grp =>
      let cs := ofListC (grp.map .inr)
      RNode.mk cs (recompute cs))
    buildLevels C fuel parents

/-- Outcome of `bulk_load`: normal return (with the new root and the
final contents of the caller-supplied list, which the call sorts in
place), the `ZeroDivisionError` raised for capacity 0 on nonempty
input, or nontermination of the level loop. -/
inductive BLOut where
  | ok (root : RNode) (callerList : List Point) : BLOut
  | zeroDiv : BLOut
  | diverged : BLOut
deriving DecidableEq, Repr

/-- The leaf-building phase of `bulk_load`, from the x-sorted list: cut
it into `ceil(sqrt(ceil(N / C)))` slices of `ceil(N / num_slices)`
consecutive points, sort each slice by y, and chunk it into leaves of at
most `C` points. -/
def blLeaves (C : ℕ) (sorted : List Point) : List RNode :=
  let n := sorted.length
  let numLeafs := ceilDiv n C
  let numSlices := ceilSqrt numLeafs
  let sliceSize := ceilDiv n numSlices
  let slices := (List.range numSlices).map
    (fun i => (sorted.drop (i * sliceSize)).take sliceSize)
  slices.flatMap (fun sl => (chunks C (stableSort yLe sl)).map mkLeaf)

/-- `RTree.bulk_load`.  Empty input returns at once, leaving the tree
untouched.  Otherwise the caller list is sorted by x in place, the
leaves are built per `blLeaves`, and the levels are grouped until one
node remains. -/
def bulkLoad (C : ℕ) (cur : RNode) (pts : List Point) : BLOut :=
  if pts.isEmpty then .ok cur pts
  else if C = 0 then .zeroDiv
  else
    let sorted := stableSort xLe pts
    match buildLevels C (sorted.length + 1) (blLeaves C sorted) with
    | some root => .ok root sorted
    | none => .diverged

/-- The fresh tree of `RTree.__init__`: an empty root with no box. -/
def freshRoot : RNode := RNode.mk .nil none

/-! ### Range query (src/05-nested-loop/implementation.py) -/

mutual
/-- `rangeQuery`, taking the derived box of the query point (the source
only ever reads `query.mbr`).  A boxless node child would raise an
`AttributeError` in the first filtering loop, and a point child
surviving the filter of a non-leaf node would raise when recursed into;
both failure modes are modelled as `none`.  A node child of a
leaf-classified node that passes the filter would be appended to the
result list as if it were a point; that type confusion is also modelled
as `none`.  All three are impossible in well-formed trees. -/
def rq (n : RNode) (q : MBR) : Option (List Point) :=
  match n with
  | .mk cs _ => if cs.isLeafK then rqLeaf cs q else rqKids cs q

def rqLeaf : ChildList → MBR → Option (List Point)
  | .nil, _ => some []
  | .consP p r, q =>
    match rqLeaf r q with
    | none => none
    | some res => some (if p.mbrOf.intersectsB q then p :: res else res)
  | .consN n r, q =>
    match n.mbrN with
    | none => none
    | some b => if b.intersectsB q then none else rqLeaf r q

def rqKids : ChildList → MBR → Option (List Point)
  | .nil, _ => some []
  | .consP p r, q => if p.mbrOf.intersectsB q then none else rqKids r q
  | .consN n r, q =>
    match n.mbrN with
    | none => none
    | some b =>
      if b.intersectsB q then
        match rq n q with
        | none => none
        | some res1 =>
          match rqKids r q with
          | none => none
          | some res2 => some (res1 ++ res2)
      else rqKids r q
end

/-! ### Invariant predicates -/

mutual
/-- The cached-box invariant of the specification, one level per node:
the cached box of every node equals the recomputed union of the boxes of
its children (derived boxes for point children, cached boxes for node
children). -/
def exactN : RNode → Bool
  | .mk cs m => decide (m = recompute cs) && exactKids cs

def exactKids : ChildList → Bool
  | .nil => true
  | .consP _ r => exactKids r
  | .consN n r => exactN n && exactKids r
end

/-- The cached-box invariant for the outcome of an insertion step:
either the single rebuilt node or both split halves satisfy it. -/
def exactRes : Sum RNode (RNode × RNode) → Bool
  | .inl n => exactN n
  | .inr (a, b) => exactN a && exactN b

/-- Homogeneous children: all points or all nodes. -/
def homogB (cs : ChildList) : Bool := cs.allPts || cs.allNodes

mutual
/-- Well-formedness of a reachable tree: a childless node has no cached
box; a node with children has a cached box that componentwise covers the
box of every child (derived for points, cached for nodes), the children
are homogeneous, and every node child is itself well formed.  The cover
may be strict: condensation leaves stale, too-large boxes behind. -/
def wfN : RNode → Bool
  | .mk cs m =>
    match m with
    | none => cs.isNil
    | some b => !cs.isNil && homogB cs && wfKids b cs

/-- Each child of the list is covered by the box and node children are
well formed. -/
def wfKids : MBR → ChildList → Bool
  | _, .nil => true
  | b, .consP p r => b.coversB p.mbrOf && wfKids b r
  | b, .consN n r =>
    (match n.mbrN with
     | some bn => b.coversB bn
     | none => false) && wfN n && wfKids b r
end

/-- Every node child is well formed and carries a cached box. -/
def wfEach : ChildList → Bool
  | .nil => true
  | .consP _ r => wfEach r
  | .consN n r => n.mbrN.isSome && wfN n && wfEach r

/-- The box of a child as read by the union fold: derived for a point,
cached for a node. -/
def boxOfChild : Sum Point RNode → Option MBR
  | .inl p => some p.mbrOf
  | .inr n => n.mbrN

/-- Well-formedness for the outcome of an insertion step: the rebuilt
node, or both split halves, are well formed and carry a cached box. -/
def wfRes : Sum RNode (RNode × RNode) → Bool
  | .inl n => wfN n && n.mbrN.isSome
  | .inr (a, b) => wfN a && a.mbrN.isSome && wfN b && b.mbrN.isSome

/-- Indexed points of the outcome of an insertion step. -/
def ptsRes : Sum RNode (RNode × RNode) → List Point
  | .inl n => n.pts
  | .inr (a, b) => a.pts ++ b.pts

/-- The points stored under one child. -/
def childPts : Sum Point RNode → List Point
  | .inl p => [p]
  | .inr n => n.pts

/-- The part of well-formedness that deletion reestablishes at the node
it rebuilds: homogeneous well-formed children whose boxes the cached box
covers.  Unlike full well-formedness the cached box may survive the
children (the root after a full condensation; the final recompute of the
delete repairs it). -/
def wfSub (n : RNode) : Prop :=
  homogB n.kids = true ∧ wfEach n.kids = true ∧
  (∀ u, n.mbrN = some u → wfKids u n.kids = true) ∧
  (n.kids ≠ .nil → n.mbrN.isSome = true)

/-- The children of the first list are those of the second with some
node children dropped, in order.  The delete walk produces exactly this
relation between the post-detach and pre-detach children. -/
inductive SubC : ChildList → ChildList → Prop where
  | nil : SubC .nil .nil
  | consP (p : Point) {a w : ChildList} : SubC a w → SubC (.consP p a) (.consP p w)
  | consN (n : RNode) {a w : ChildList} : SubC a w → SubC (.consN n a) (.consN n w)
  | skipN (n : RNode) {a w : ChildList} : SubC a w → SubC a (.consN n w)

/-- Induction over a children list alone, treating member nodes as
opaque. -/
def ChildList.recShallow {motive : ChildList → Prop}
    (nil : motive .nil)
    (consP : ∀ p r, motive r → motive (.consP p r))
    (consN : ∀ n r, motive r → motive (.consN n r)) :
    ∀ cs, motive cs
  | .nil => nil
  | .consP p r => consP p r (ChildList.recShallow nil consP consN r)
  | .consN n r => consN n r (ChildList.recShallow nil consP consN r)

mutual
/-- Mutual induction over nodes and children lists, node form. -/
def recNodes {mN : RNode → Prop} {mC : ChildList → Prop}
    (mk : ∀ cs m, mC cs → mN (.mk cs m))
    (nil : mC .nil)
    (consP : ∀ p r, mC r → mC (.consP p r))
    (consN : ∀ n r, mN n → mC r → mC (.consN n r)) :
    ∀ n, mN n
  | .mk cs m => mk cs m (recKids mk nil consP consN cs)

/-- Mutual induction over nodes and children lists, list form. -/
def recKids {mN : RNode → Prop} {mC : ChildList → Prop}
    (mk : ∀ cs m, mC cs → mN (.mk cs m))
    (nil : mC .nil)
    (consP : ∀ p r, mC r → mC (.consP p r))
    (consN : ∀ n r, mN n → mC r → mC (.consN n r)) :
    ∀ cs, mC cs
  | .nil => nil
  | .consP p r => consP p r (recKids mk nil consP consN r)
  | .consN n r => consN n r (recNodes mk nil consP consN n) (recKids mk nil consP consN r)
end

/-- Trees reachable from a fresh index with a capacity the construction
contract admits, by any sequence of the public mutating operations. -/
inductive Reachable (C : ℕ) : RNode → Prop where
  | fresh : 2 ≤ C → Reachable C freshRoot
  | bulk {t : RNode} {pts : List Point} {r : RNode} {l : List Point} :
      Reachable C t → bulkLoad C t pts = .ok r l → Reachable C r
  | ins {t : RNode} (p : Point) : Reachable C t → Reachable C (insertOp C t p)
  | del {t : RNode} (p : Point) : Reachable C t → Reachable C (deleteOp C t p)

/-- Trees reachable using only bulk loads and inserts (no deletes). -/
inductive ReachableBI (C : ℕ) : RNode → Prop where
  | fresh : 2 ≤ C → ReachableBI C freshRoot
  | bulk {t : RNode} {pts : List Point} {r : RNode} {l : List Point} :
      ReachableBI C t → bulkLoad C t pts = .ok r l → ReachableBI C r
  | ins {t : RNode} (p : Point) : ReachableBI C t → ReachableBI C (insertOp C t p)

/-- A containing child in the sense of the choose-leaf shortcut: a node
child whose cached box includes the full extent of the point. -/
def childContains (c : Sum Point RNode) (p : Point) : Bool :=
  match c with
  | .inl _ => false
  | .inr n =>
    match n.mbrN with
    | some b => b.includesB p
    | none => false

/-! ### Concrete traces used by the counterexamples -/

/-- Twenty entities for the capacity-4 invariant trace: all share x = 0
and radius 1, so the x-sort is the identity and the three slices (7, 7
and 6 points) are cut purely by input position. -/
def c1pts : List Point :=
  [⟨0, 0, 1⟩, ⟨0, 10, 1⟩, ⟨0, 20, 1⟩, ⟨0, 30, 1⟩, ⟨0, 40, 1⟩, ⟨0, 50, 1⟩, ⟨0, 145, 1⟩,
   ⟨0, 100, 1⟩, ⟨0, 110, 1⟩, ⟨0, 120, 1⟩, ⟨0, 130, 1⟩, ⟨0, 140, 1⟩, ⟨0, 150, 1⟩, ⟨0, 160, 1⟩,
   ⟨0, 200, 1⟩, ⟨0, 210, 1⟩, ⟨0, 220, 1⟩, ⟨0, 230, 1⟩, ⟨0, 240, 1⟩, ⟨0, 250, 1⟩]

/-- Bulk load the twenty entities at capacity 4, then delete (0,40,1)
and (0,50,1); report whether the cached-box invariant still holds. -/
def c1exact : Option Bool :=
  match bulkLoad 4 freshRoot c1pts with
  | .ok r _ => some (exactN (deleteOp 4 (deleteOp 4 r ⟨0, 40, 1⟩) ⟨0, 50, 1⟩))
  | _ => none

/-- Capacity-2 tree over three zero-radius collinear entities. -/
def c4root : Option RNode :=
  match bulkLoad 2 freshRoot [⟨0, 0, 0⟩, ⟨1, 0, 0⟩, ⟨2, 0, 0⟩] with
  | .ok r _ => some r
  | _ => none

/-- Insert the zero-radius entity (5,5,0) and delete it again; compare
the indexed multiset with its value before the pair of calls. -/
def c4cancels : Option Bool :=
  c4root.map (fun r =>
    decide ((deleteOp 2 (insertOp 2 r ⟨5, 5, 0⟩) ⟨5, 5, 0⟩).pts.Perm r.pts))

/-- The children of an internal node for the choose-leaf scan: two node
children whose boxes both include the full extent of the point (5,5,0),
the first box being (0,0,10,10) and the second (0,0,20,20). -/
def c5kids : ChildList :=
  .consN (.mk (.consP ⟨1, 1, 0⟩ .nil) (some ⟨0, 0, 10, 10⟩))
    (.consN (.mk (.consP ⟨2, 2, 0⟩ .nil) (some ⟨0, 0, 20, 20⟩)) .nil)

/-- The concrete scenario of the specification: capacity 4, the four
zero-radius entities (0,0), (1,0), (10,10), (11,11). -/
def c6root : Option RNode :=
  match bulkLoad 4 freshRoot [⟨0, 0, 0⟩, ⟨1, 0, 0⟩, ⟨10, 10, 0⟩, ⟨11, 11, 0⟩] with
  | .ok r _ => some r
  | _ => none

/-- Range query of the scenario tree with the box (0,0,2,2). -/
def c6res : Option (Option (List Point)) :=
  c6root.map (fun r => rq r ⟨0, 0, 2, 2⟩)

/-- Capacity-5 tree over six radius-1 entities on the x-axis: two leaves
of three entities each under one root. -/
def c8root : Option RNode :=
  match bulkLoad 5 freshRoot
      [⟨0, 0, 1⟩, ⟨10, 0, 1⟩, ⟨20, 0, 1⟩, ⟨30, 0, 1⟩, ⟨40, 0, 1⟩, ⟨50, 0, 1⟩] with
  | .ok r _ => some r
  | _ => none

/-- Delete (10,0,1): the first leaf drops to two children. -/
def c8after : Option RNode :=
  c8root.map (fun r => deleteOp 5 r ⟨10, 0, 1⟩)

/-- Drop the same leaf further to one child: delete (0,0,1) as well. -/
def c8after2 : Option RNode :=
  c8after.map (fun r => deleteOp 5 r ⟨0, 0, 1⟩)

/-- A three-level capacity-4 tree for observing the reinsertion order:
the left branch holds the leaves {(0,0,1),(10,10,1)} and
{(20,20,1),(21,21,1)}, the right branch holds the single leaf
{(50,50,1)}.  Deleting (0,0,1) underflows both the left leaf and its
parent, queueing (10,10,1) first and then (20,20,1), (21,21,1); all
three are reinserted into the right leaf, whose final member order
records the processing order. -/
def c8rev : RNode :=
  .mk
    (.consN
      (.mk
        (.consN (.mk (.consP ⟨0, 0, 1⟩ (.consP ⟨10, 10, 1⟩ .nil)) (some ⟨-1, -1, 11, 11⟩))
          (.consN (.mk (.consP ⟨20, 20, 1⟩ (.consP ⟨21, 21, 1⟩ .nil)) (some ⟨19, 19, 22, 22⟩))
            .nil))
        (some ⟨-1, -1, 22, 22⟩))
      (.consN
        (.mk (.consN (.mk (.consP ⟨50, 50, 1⟩ .nil) (some ⟨49, 49, 51, 51⟩)) .nil)
          (some ⟨49, 49, 51, 51⟩))
        .nil))
    (some ⟨-1, -1, 51, 51⟩)

/-- Capacity-2 tree over five radius-1 entities on the x-axis; deleting
(20,0,1), (0,0,1) and (10,0,1) in turn empties the left branch and
leaves a root with exactly one node child. -/
def c9t : Option RNode :=
  match bulkLoad 2 freshRoot [⟨0, 0, 1⟩, ⟨10, 0, 1⟩, ⟨20, 0, 1⟩, ⟨30, 0, 1⟩, ⟨40, 0, 1⟩] with
  | .ok r _ =>
    some (deleteOp 2 (deleteOp 2 (deleteOp 2 r ⟨20, 0, 1⟩) ⟨0, 0, 1⟩) ⟨10, 0, 1⟩)
  | _ => none

/-- Delete the absent entity (0,0,1) from that tree and report whether
the tree is unchanged and whether the indexed points are unchanged. -/
def c9absent : Option (Bool × Bool) :=
  c9t.map (fun t =>
    (decide (deleteOp 2 t ⟨0, 0, 1⟩ = t),
     decide ((deleteOp 2 t ⟨0, 0, 1⟩).pts = t.pts)))

/-! ## Geometric lemmas -/

theorem intersectsB_iff {b o : MBR} :
    b.intersectsB o = true ↔ o.x1 < b.x2 ∧ b.x1 < o.x2 ∧ o.y1 < b.y2 ∧ b.y1 < o.y2 := by
  simp [MBR.intersectsB, not_or, not_le, and_assoc]

theorem coversB_iff {out inn : MBR} :
    out.coversB inn = true ↔
      out.x1 ≤ inn.x1 ∧ out.y1 ≤ inn.y1 ∧ inn.x2 ≤ out.x2 ∧ inn.y2 ≤ out.y2 := by
  simp [MBR.coversB, and_assoc]

theorem includesB_iff {b : MBR} {p : Point} :
    b.includesB p = true ↔
      b.x1 ≤ p.x - p.radius ∧ p.x + p.radius ≤ b.x2 ∧
      b.y1 ≤ p.y - p.radius ∧ p.y + p.radius ≤ b.y2 := by
  simp [MBR.includesB, and_assoc]

theorem coversB_refl (b : MBR) : b.coversB b = true := by
  simp [coversB_iff]

theorem coversB_trans {a b c : MBR} (h1 : a.coversB b = true) (h2 : b.coversB c = true) :
    a.coversB c = true := by
  rw [coversB_iff] at *
  omega

theorem intersectsB_mono {b i q : MBR} (hc : b.coversB i = true)
    (hi : i.intersectsB q = true) : b.intersectsB q = true := by
  rw [coversB_iff] at hc
  rw [intersectsB_iff] at *
  omega

theorem not_intersectsB_anti {b i q : MBR} (hc : b.coversB i = true)
    (hb : b.intersectsB q = false) : i.intersectsB q = false := by
  cases hiq : i.intersectsB q with
  | false => rfl
  | true => rw [intersectsB_mono hc hiq] at hb; exact hb.symm ▸ rfl

theorem unionB_covers_left (a b : MBR) : (a.unionB b).coversB a = true := by
  simp only [coversB_iff, MBR.unionB]
  refine ⟨min_le_left _ _, min_le_left _ _, le_max_left _ _, le_max_left _ _⟩

theorem unionB_covers_right (a b : MBR) : (a.unionB b).coversB b = true := by
  simp only [coversB_iff, MBR.unionB]
  refine ⟨min_le_right _ _, min_le_right _ _, le_max_right _ _, le_max_right _ _⟩

theorem includes_covers {b : MBR} {p : Point} (h : b.includesB p = true) :
    b.coversB p.mbrOf = true := by
  rw [includesB_iff] at h
  rw [coversB_iff]
  simp only [Point.mbrOf]
  exact ⟨h.1, h.2.2.1, h.2.1, h.2.2.2⟩

theorem covers_intersects_of_pos {b : MBR} {p : Point}
    (hc : b.coversB p.mbrOf = true) (hr : 0 < p.radius) :
    b.intersectsB p.mbrOf = true := by
  rw [coversB_iff] at hc
  rw [intersectsB_iff]
  simp only [Point.mbrOf] at *
  omega

theorem area_le_enlarged (b : MBR) (p : Point) : b.areaQ ≤ b.enlargedAreaQ p := by
  unfold MBR.areaQ MBR.enlargedAreaQ
  have hx : max 0 (b.x2 - b.x1) ≤ max 0 (max b.x2 (p.x + p.radius) - min b.x1 (p.x - p.radius)) := by
    have h1 : b.x2 - b.x1 ≤ max b.x2 (p.x + p.radius) - min b.x1 (p.x - p.radius) := by
      have := le_max_left b.x2 (p.x + p.radius)
      have := min_le_left b.x1 (p.x - p.radius)
      omega
    exact max_le_max le_rfl h1
  have hy : max 0 (b.y2 - b.y1) ≤ max 0 (max b.y2 (p.y + p.radius) - min b.y1 (p.y - p.radius)) := by
    have h1 : b.y2 - b.y1 ≤ max b.y2 (p.y + p.radius) - min b.y1 (p.y - p.radius) := by
      have := le_max_left b.y2 (p.y + p.radius)
      have := min_le_left b.y1 (p.y - p.radius)
      omega
    exact max_le_max le_rfl h1
  exact mul_le_mul hx hy (le_max_left _ _) (le_trans (le_max_left _ _) hx)

/-! ## Recompute lemmas -/

theorem mergeOpt_covers_new (acc : Option MBR) (b : MBR) :
    ∃ u, mergeOpt acc b = some u ∧ u.coversB b = true := by
  cases acc with
  | none => exact ⟨b, rfl, coversB_refl b⟩
  | some a => exact ⟨a.unionB b, rfl, unionB_covers_right a b⟩

theorem mergeOpt_covers_old {acc : Option MBR} {a : MBR} (b : MBR)
    (h : acc = some a) : ∃ u, mergeOpt acc b = some u ∧ u.coversB a = true := by
  subst h
  exact ⟨a.unionB b, rfl, unionB_covers_left a b⟩

theorem recomputeGo_mono {cs : ChildList} {acc : Option MBR} {a : MBR}
    (h : acc = some a) :
    ∃ u, recomputeGo cs acc = some u ∧ u.coversB a = true := by
  induction cs using ChildList.recShallow generalizing acc a with
  | nil => exact ⟨a, by simp [recomputeGo, h], coversB_refl a⟩
  | consP p r ih =>
    obtain ⟨u, hu, hc⟩ := mergeOpt_covers_old p.mbrOf h
    obtain ⟨v, hv, hvc⟩ := ih hu
    exact ⟨v, by simpa [recomputeGo] using hv, coversB_trans hvc hc⟩
  | consN n r ih =>
    cases hm : n.mbrN with
    | none =>
      obtain ⟨v, hv, hvc⟩ := ih h
      exact ⟨v, by simp [recomputeGo, hm, hv], hvc⟩
    | some bn =>
      obtain ⟨u, hu, hc⟩ := mergeOpt_covers_old bn h
      obtain ⟨v, hv, hvc⟩ := ih hu
      exact ⟨v, by simp [recomputeGo, hm, hv], coversB_trans hvc hc⟩

/-- Every box a child contributes to the union fold is covered by the
result. -/
theorem recomputeGo_covers {cs : ChildList} {acc : Option MBR} {c : Sum Point RNode}
    {bc : MBR} (hmem : c ∈ toListC cs) (hbox : boxOfChild c = some bc) :
    ∃ u, recomputeGo cs acc = some u ∧ u.coversB bc = true := by
  induction cs using ChildList.recShallow generalizing acc with
  | nil => simp [toListC] at hmem
  | consP p r ih =>
    simp only [toListC, List.mem_cons] at hmem
    rcases hmem with rfl | hmem
    · simp only [boxOfChild, Option.some_inj] at hbox
      subst hbox
      obtain ⟨u, hu, hc⟩ := mergeOpt_covers_new acc p.mbrOf
      obtain ⟨v, hv, hvc⟩ := recomputeGo_mono hu
      exact ⟨v, by simpa [recomputeGo] using hv, coversB_trans hvc hc⟩
    · obtain ⟨v, hv, hvc⟩ := ih hmem
      exact ⟨v, by simpa [recomputeGo] using hv, hvc⟩
  | consN n r ih =>
    simp only [toListC, List.mem_cons] at hmem
    rcases hmem with rfl | hmem
    · simp only [boxOfChild] at hbox
      obtain ⟨u, hu, hc⟩ := mergeOpt_covers_new acc bc
      obtain ⟨v, hv, hvc⟩ := @recomputeGo_mono r (mergeOpt acc bc) u hu
      refine ⟨v, ?_, coversB_trans hvc hc⟩
      simp only [recomputeGo, hbox]
      exact hv
    · cases hm : n.mbrN with
      | none =>
        obtain ⟨v, hv, hvc⟩ := @ih acc hmem
        exact ⟨v, by simp only [recomputeGo, hm]; exact hv, hvc⟩
      | some bn =>
        obtain ⟨v, hv, hvc⟩ := @ih (mergeOpt acc bn) hmem
        exact ⟨v, by simp only [recomputeGo, hm]; exact hv, hvc⟩

theorem recompute_covers {cs : ChildList} {c : Sum Point RNode} {bc : MBR}
    (hmem : c ∈ toListC cs) (hbox : boxOfChild c = some bc) :
    ∃ u, recompute cs = some u ∧ u.coversB bc = true :=
  recomputeGo_covers hmem hbox

/-! ## Stable sort lemmas -/

theorem insSorted_perm (le : α → α → Bool) (a : α) (l : List α) :
    (insSorted le a l).Perm (a :: l) := by
  induction l with
  | nil => simp [insSorted]
  | cons b r ih =>
    simp only [insSorted]
    split
    · exact List.Perm.refl _
    · exact ((ih.cons b).trans (List.Perm.swap a b r))

theorem stableSort_perm (le : α → α → Bool) (l : List α) :
    (stableSort le l).Perm l := by
  induction l with
  | nil => simp [stableSort]
  | cons a r ih =>
    exact (insSorted_perm le a (stableSort le r)).trans (ih.cons a)

theorem mem_insSorted {le : α → α → Bool} {a x : α} {l : List α} :
    x ∈ insSorted le a l ↔ x = a ∨ x ∈ l :=
  ((insSorted_perm le a l).mem_iff).trans (by simp)

theorem mem_stableSort {le : α → α → Bool} {x : α} {l : List α} :
    x ∈ stableSort le l ↔ x ∈ l :=
  (stableSort_perm le l).mem_iff

theorem insSorted_pairwise {le : α → α → Bool}
    (htot : ∀ a b, le a b = true ∨ le b a = true)
    (htrans : ∀ a b c, le a b = true → le b c = true → le a c = true)
    {a : α} {l : List α} (h : l.Pairwise (fun x y => le x y = true)) :
    (insSorted le a l).Pairwise (fun x y => le x y = true) := by
  induction l with
  | nil => simp [insSorted]
  | cons b r ih =>
    simp only [insSorted]
    rcases List.pairwise_cons.mp h with ⟨hb, hr⟩
    split
    · rename_i hab
      refine List.pairwise_cons.mpr ⟨?_, h⟩
      intro y hy
      rcases List.mem_cons.mp hy with rfl | hy
      · exact hab
      · exact htrans a b y hab (hb y hy)
    · rename_i hab
      have hba : le b a = true := by
        rcases htot a b with hab2 | hba
        · exact absurd hab2 hab
        · exact hba
      refine List.pairwise_cons.mpr ⟨?_, ih hr⟩
      intro y hy
      rcases mem_insSorted.mp hy with rfl | hy
      · exact hba
      · exact hb y hy

theorem stableSort_pairwise (le : α → α → Bool)
    (htot : ∀ a b, le a b = true ∨ le b a = true)
    (htrans : ∀ a b c, le a b = true → le b c = true → le a c = true) (l : List α) :
    (stableSort le l).Pairwise (fun x y => le x y = true) := by
  induction l with
  | nil => simp [stableSort]
  | cons a r ih => exact insSorted_pairwise htot htrans ih

/-! ## Choose-leaf scan lemmas -/

theorem chooseGo_no_contains (p : Point) (cs : ChildList)
    (h : ∀ d ∈ toListC cs, childContains d p = false) :
    ∀ i0 ch, chooseGo p cs i0 ch (some 0) = ch := by
  induction cs using ChildList.recShallow with
  | nil => intro i0 ch; rfl
  | consP q r ih =>
    intro i0 ch
    exact ih (fun d hd => h d (by simp [toListC, hd])) (i0 + 1) ch
  | consN n r ih =>
    intro i0 ch
    have hn : childContains (.inr n) p = false := h _ (by simp [toListC])
    have hr : ∀ d ∈ toListC r, childContains d p = false :=
      fun d hd => h d (by simp [toListC, hd])
    cases hm : n.mbrN with
    | none =>
      simp only [chooseGo, hm]
      exact ih hr (i0 + 1) ch
    | some b =>
      have hni : b.includesB p = false := by
        simpa [childContains, hm] using hn
      have hinc : ¬ (b.enlargedAreaQ p - b.areaQ < 0) := by
        have := area_le_enlarged b p
        omega
      simp only [chooseGo, hm, hni, Bool.false_eq_true, if_false, hinc]
      exact ih hr (i0 + 1) ch

theorem chooseGo_last_contains (p : Point) (cs : ChildList) :
    ∀ (i i0 : ℕ) (ch : Option ℕ) (best : Option ℤ) (c : Sum Point RNode),
    (toListC cs)[i]? = some c → childContains c p = true →
    (∀ j d, i < j → (toListC cs)[j]? = some d → childContains d p = false) →
    chooseGo p cs i0 ch best = some (i0 + i) := by
  induction cs using ChildList.recShallow with
  | nil => intro i i0 ch best c hget; simp [toListC] at hget
  | consP q r ih =>
    intro i i0 ch best c hget hc hlast
    cases i with
    | zero => simp [toListC] at hget; subst hget; simp [childContains] at hc
    | succ k =>
      have hget' : (toListC r)[k]? = some c := by simpa [toListC] using hget
      have hlast' : ∀ j d, k < j → (toListC r)[j]? = some d → childContains d p = false := by
        intro j d hj hg
        exact hlast (j + 1) d (by omega) (by simpa [toListC] using hg)
      have := ih k (i0 + 1) ch best c hget' hc hlast'
      simpa [chooseGo, Nat.add_assoc, Nat.add_comm 1 k] using this
  | consN n r ih =>
    intro i i0 ch best c hget hc hlast
    cases i with
    | zero =>
      have hcn : Sum.inr n = c := by simpa [toListC] using hget
      subst hcn
      obtain ⟨b, hm, hinc⟩ : ∃ b, n.mbrN = some b ∧ b.includesB p = true := by
        cases hm : n.mbrN with
        | none => simp [childContains, hm] at hc
        | some b => exact ⟨b, rfl, by simpa [childContains, hm] using hc⟩
      have hr : ∀ d ∈ toListC r, childContains d p = false := by
        intro d hd
        obtain ⟨j, hj⟩ := List.mem_iff_getElem?.mp hd
        exact hlast (j + 1) d (by omega) (by simpa [toListC] using hj)
      simp only [chooseGo, hm, hinc, if_true]
      simpa using chooseGo_no_contains p r hr (i0 + 1) (some i0)
    | succ k =>
      have hget' : (toListC r)[k]? = some c := by simpa [toListC] using hget
      have hlast' : ∀ j d, k < j → (toListC r)[j]? = some d → childContains d p = false := by
        intro j d hj hg
        exact hlast (j + 1) d (by omega) (by simpa [toListC] using hg)
      have heq : i0 + (k + 1) = (i0 + 1) + k := by omega
      rw [heq]
      simp only [chooseGo]
      split
      · exact ih k (i0 + 1) _ _ c hget' hc hlast'
      · split
        · exact ih k (i0 + 1) _ _ c hget' hc hlast'
        · split
          · exact ih k (i0 + 1) _ _ c hget' hc hlast'
          · split
            · exact ih k (i0 + 1) _ _ c hget' hc hlast'
            · exact ih k (i0 + 1) _ _ c hget' hc hlast'

/-! ## Find and collapse lemmas -/

theorem containsP_mem {cs : ChildList} {p : Point} (h : cs.containsP p = true) :
    p ∈ cs.ptsK := by
  induction cs using ChildList.recShallow with
  | nil => simp [ChildList.containsP] at h
  | consP q r ih =>
    simp only [ChildList.containsP, Bool.or_eq_true, decide_eq_true_eq] at h
    rcases h with rfl | h
    · simp [ChildList.ptsK]
    · simp [ChildList.ptsK, ih h]
  | consN n r ih =>
    simp only [ChildList.containsP] at h
    simp [ChildList.ptsK, ih h]

mutual
theorem delFindN_mem {C : ℕ} {p : Point} :
    ∀ (n : RNode) (x : RNode × List Point), delFindN C n p = some x → p ∈ n.pts
  | .mk cs m, x, h => by
    simp only [delFindN] at h
    split at h
    · exact absurd h (by simp)
    · split at h
      · split at h
        · rename_i hcont
          simpa [RNode.pts] using containsP_mem hcont
        · exact absurd h (by simp)
      · rcases hk : delFindKids C cs p with _ | y
        · simp [hk] at h
        · simpa [RNode.pts] using delFindKids_mem cs y hk

theorem delFindKids_mem {C : ℕ} {p : Point} :
    ∀ (cs : ChildList) (y : ChildList × ChildList × List Point),
      delFindKids C cs p = some y → p ∈ cs.ptsK
  | .nil, y, h => by simp [delFindKids] at h
  | .consP q r, y, h => by
    simp only [delFindKids] at h
    rcases hk : delFindKids C r p with _ | z
    · simp [hk] at h
    · simp [ChildList.ptsK, delFindKids_mem r z hk]
  | .consN n r, y, h => by
    rcases hm : n.mbrN with _ | b
    · simp only [delFindKids, hm] at h
      rcases hk : delFindKids C r p with _ | z
      · simp [hk] at h
      · simp [ChildList.ptsK, delFindKids_mem r z hk]
    · simp only [delFindKids, hm] at h
      by_cases hi : b.intersectsB p.mbrOf = true
      · simp only [hi, if_true] at h
        rcases hn : delFindN C n p with _ | w
        · simp only [hn] at h
          rcases hk : delFindKids C r p with _ | z
          · simp [hk] at h
          · simp [ChildList.ptsK, delFindKids_mem r z hk]
        · simp [ChildList.ptsK, delFindN_mem n w hn]
      · simp only [Bool.not_eq_true] at hi
        simp only [hi, Bool.false_eq_true, if_false] at h
        rcases hk : delFindKids C r p with _ | z
        · simp [hk] at h
        · simp [ChildList.ptsK, delFindKids_mem r z hk]
end

theorem ptsK_eq_pts (n : RNode) : n.kids.ptsK = n.pts := by
  cases n with
  | mk cs m => rfl

theorem collapseRoot_pts (r : RNode) : (collapseRoot r).pts = r.pts := by
  cases r with
  | mk cs m =>
    cases cs with
    | nil => rfl
    | consP p rest => rfl
    | consN n rest =>
      cases rest with
      | nil =>
        cases n with
        | mk cs2 m2 => simp [collapseRoot, RNode.pts, ChildList.ptsK]
      | consP p2 r2 => rfl
      | consN n2 r2 => rfl

/-! ## Arithmetic lemmas for the bulk-load shape -/

theorem ceilDiv_pos {a b : ℕ} (ha : 1 ≤ a) (hb : 1 ≤ b) : 1 ≤ ceilDiv a b := by
  unfold ceilDiv
  rw [Nat.le_div_iff_mul_le hb]
  omega

theorem le_mul_ceilDiv (a : ℕ) {b : ℕ} (hb : 1 ≤ b) : a ≤ b * ceilDiv a b := by
  unfold ceilDiv
  have h1 := Nat.div_add_mod (a + b - 1) b
  have h2 : (a + b - 1) % b < b := Nat.mod_lt _ hb
  omega

theorem ceilDiv_le {a b : ℕ} (hb : 1 ≤ b) : ceilDiv a b ≤ a := by
  unfold ceilDiv
  have hx : a ≤ a * b := Nat.le_mul_of_pos_right a hb
  have hlt : a + b - 1 < (a + 1) * b := by
    have hexp : (a + 1) * b = a * b + b := by ring
    omega
  have := (Nat.div_lt_iff_lt_mul hb).mpr hlt
  omega

theorem ceilDiv_lt {a b : ℕ} (ha : 2 ≤ a) (hb : 2 ≤ b) : ceilDiv a b < a := by
  unfold ceilDiv
  rw [Nat.div_lt_iff_lt_mul (by omega)]
  have h1 : 2 * b ≤ a * b := Nat.mul_le_mul_right b ha
  have h2 : 2 * a ≤ a * b := by
    calc 2 * a ≤ b * a := Nat.mul_le_mul_right a hb
    _ = a * b := Nat.mul_comm b a
  omega

theorem ceilDiv_one (a : ℕ) : ceilDiv a 1 = a := by
  simp [ceilDiv]

/-! ## List plumbing lemmas for bulk load -/

theorem splitSizes_length (l : List α) (sizes : List ℕ) :
    (splitSizes l sizes).length = sizes.length := by
  induction sizes generalizing l with
  | nil => simp [splitSizes]
  | cons s rest ih => simp [splitSizes, ih]

theorem splitSizes_flatten {l : List α} {sizes : List ℕ} (h : sizes.sum = l.length) :
    (splitSizes l sizes).flatten = l := by
  induction sizes generalizing l with
  | nil =>
    simp only [List.sum_nil] at h
    have : l = [] := List.eq_nil_of_length_eq_zero h.symm
    simp [splitSizes, this]
  | cons s rest ih =>
    simp only [splitSizes, List.flatten_cons]
    rw [ih (by simp only [List.length_drop]; simp at h; omega)]
    exact List.take_append_drop s l

theorem evenSizes_sum (b rem : ℕ) :
    ∀ k, ((List.range k).map (fun i => b + if i < rem then 1 else 0)).sum
      = k * b + min rem k := by
  intro k
  induction k with
  | zero => simp
  | succ k ih =>
    rw [List.range_succ, List.map_append, List.sum_append, ih]
    by_cases hk : k < rem
    · simp only [List.map_cons, List.map_nil, hk, if_true, List.sum_cons, List.sum_nil]
      have hexp : (k + 1) * b = k * b + b := by ring
      omega
    · simp only [List.map_cons, List.map_nil, hk, if_false, List.sum_cons, List.sum_nil]
      have hexp : (k + 1) * b = k * b + b := by ring
      omega

theorem chunksGo_flatten {C : ℕ} :
    ∀ (fuel : ℕ) (l : List α), l.length ≤ fuel → (chunksGo C fuel l).flatten = l := by
  intro fuel
  induction fuel with
  | zero =>
    intro l h
    have : l = [] := List.eq_nil_of_length_eq_zero (by omega)
    subst this
    rfl
  | succ fuel ih =>
    intro l h
    match l with
    | [] => rfl
    | a :: rest =>
      simp only [chunksGo, List.flatten_cons]
      rw [ih (rest.drop (C - 1)) (by simp only [List.length_drop]; simp at h; omega)]
      simp [List.take_append_drop]

theorem chunks_flatten {C : ℕ} (l : List α) : (chunks C l).flatten = l :=
  chunksGo_flatten l.length l le_rfl

theorem chunksGo_ne_nil {C : ℕ} :
    ∀ {fuel : ℕ} {l : List α}, ∀ g ∈ chunksGo C fuel l, g ≠ [] := by
  intro fuel
  induction fuel with
  | zero => intro l g hg; cases l <;> simp [chunksGo] at hg
  | succ fuel ih =>
    intro l g hg
    match l with
    | [] => simp [chunksGo] at hg
    | a :: rest =>
      simp only [chunksGo, List.mem_cons] at hg
      rcases hg with rfl | hg
      · simp
      · exact ih g hg

theorem chunksGo_length_le {C : ℕ} (hC : 1 ≤ C) :
    ∀ {fuel : ℕ} {l : List α}, ∀ g ∈ chunksGo C fuel l, g.length ≤ C := by
  intro fuel
  induction fuel with
  | zero => intro l g hg; cases l <;> simp [chunksGo] at hg
  | succ fuel ih =>
    intro l g hg
    match l with
    | [] => simp [chunksGo] at hg
    | a :: rest =>
      simp only [chunksGo, List.mem_cons] at hg
      rcases hg with rfl | hg
      · simp only [List.length_cons, List.length_take]
        omega
      · exact ih g hg

theorem slices_flatten {s : ℕ} :
    ∀ (k : ℕ) (l : List α), l.length ≤ k * s →
      ((List.range k).map (fun i => (l.drop (i * s)).take s)).flatten = l := by
  intro k
  induction k with
  | zero =>
    intro l h
    have : l = [] := List.eq_nil_of_length_eq_zero (by simpa using h)
    subst this
    rfl
  | succ k ih =>
    intro l h
    rw [List.range_succ_eq_map]
    simp only [List.map_cons, List.map_map, List.flatten_cons, Nat.zero_mul, List.drop_zero]
    have hmap : (List.range k).map ((fun i => (l.drop (i * s)).take s) ∘ Nat.succ)
        = (List.range k).map (fun i => ((l.drop s).drop (i * s)).take s) := by
      apply List.map_congr_left
      intro i _
      simp only [Function.comp_apply]
      rw [List.drop_drop]
      have hmul : i.succ * s = s + i * s := by
        have hs : i.succ = i + 1 := rfl
        rw [hs]
        ring
      rw [hmul]
    rw [hmap, ih (l.drop s) (by
      simp only [List.length_drop]
      have hexp : (k + 1) * s = k * s + s := by ring
      omega)]
    exact List.take_append_drop s l

theorem flatten_map_flatten (f : α → List β) (gs : List (List α)) :
    (gs.map (fun g => (g.map f).flatten)).flatten = (gs.flatten.map f).flatten := by
  induction gs with
  | nil => rfl
  | cons g rest ih => simp [ih]

theorem flatten_flatMap (F : α → List (List β)) (l : List α) :
    (l.flatMap F).flatten = (l.map (fun a => (F a).flatten)).flatten := by
  induction l with
  | nil => rfl
  | cons a rest ih => simp [ih]

theorem flatten_map_perm {L : List (List α)} {f : List α → List α}
    (hf : ∀ x ∈ L, (f x).Perm x) : ((L.map f).flatten).Perm L.flatten := by
  induction L with
  | nil => simp
  | cons x rest ih =>
    simp only [List.map_cons, List.flatten_cons]
    exact (hf x (by simp)).append (ih (fun y hy => hf y (by simp [hy])))

theorem length_le_flatten_length {L : List (List α)} (h : ∀ x ∈ L, x ≠ []) :
    L.length ≤ L.flatten.length := by
  induction L with
  | nil => simp
  | cons x rest ih =>
    simp only [List.length_cons, List.flatten_cons, List.length_append]
    have hx : 1 ≤ x.length := by
      have := h x (by simp)
      cases x with
      | nil => simp at this
      | cons a r => simp
    have := ih (fun y hy => h y (by simp [hy]))
    omega

theorem flatten_length_le {L : List (List α)} (h : ∀ x ∈ L, x.length ≤ 1) :
    L.flatten.length ≤ L.length := by
  induction L with
  | nil => simp
  | cons x rest ih =>
    simp only [List.flatten_cons, List.length_append, List.length_cons]
    have := h x (by simp)
    have := ih (fun y hy => h y (by simp [hy]))
    omega

theorem ptsK_ofListC_inl (grp : List Point) : (ofListC (grp.map .inl)).ptsK = grp := by
  induction grp with
  | nil => rfl
  | cons p rest ih => simp [ofListC, ChildList.ptsK, ih]

theorem ptsK_ofListC_inr (grp : List RNode) :
    (ofListC (grp.map .inr)).ptsK = (grp.map RNode.pts).flatten := by
  induction grp with
  | nil => rfl
  | cons n rest ih => simp [ofListC, ChildList.ptsK, ih]

theorem pts_mkLeaf (grp : List Point) : (mkLeaf grp).pts = grp := by
  simp [mkLeaf, RNode.pts, ptsK_ofListC_inl]

/-! ## Level-building lemmas -/

theorem buildLevels_pts {C : ℕ} (hC : 1 ≤ C) :
    ∀ (fuel : ℕ) (ns : List RNode) (r : RNode), buildLevels C fuel ns = some r →
      r.pts = (ns.map RNode.pts).flatten := by
  intro fuel
  induction fuel with
  | zero => intro ns r h; simp [buildLevels] at h
  | succ fuel ih =>
    intro ns r h
    match ns with
    | [n] =>
      simp only [buildLevels, Option.some_inj] at h
      subst h
      simp
    | [] => simp [buildLevels] at h
    | n1 :: n2 :: rest =>
      simp only [buildLevels] at h
      have hrec := ih _ _ h
      rw [hrec]
      have hnum : 1 ≤ ceilDiv (n1 :: n2 :: rest).length C :=
        ceilDiv_pos (by simp) hC
      set total := (n1 :: n2 :: rest).length with htot
      set numNew := ceilDiv total C with hnn
      have hsum : ((List.range numNew).map
          (fun i => total / numNew + if i < total % numNew then 1 else 0)).sum = total := by
        rw [evenSizes_sum]
        have hmod : total % numNew < numNew := Nat.mod_lt _ (by omega)
        have hdm := Nat.div_add_mod total numNew
        omega
      rw [List.map_map]
      have hpts : (fun grp => RNode.pts (RNode.mk (ofListC (grp.map Sum.inr))
          (recompute (ofListC (grp.map Sum.inr))))) = fun grp : List RNode =>
            ((grp.map RNode.pts)).flatten := by
        funext grp
        simp [RNode.pts, ptsK_ofListC_inr]
      rw [show ((splitSizes (n1 :: n2 :: rest)
            ((List.range numNew).map fun i => total / numNew +
              if i < total % numNew then 1 else 0)).map
            (RNode.pts ∘ fun grp => RNode.mk (ofListC (grp.map Sum.inr))
              (recompute (ofListC (grp.map Sum.inr)))))
          = ((splitSizes (n1 :: n2 :: rest)
            ((List.range numNew).map fun i => total / numNew +
              if i < total % numNew then 1 else 0)).map
            (fun grp => ((grp.map RNode.pts)).flatten)) from by
        apply List.map_congr_left
        intro grp _
        simp [RNode.pts, ptsK_ofListC_inr]]
      rw [flatten_map_flatten]
      congr 1
      rw [splitSizes_flatten (by rw [hsum])]

theorem buildLevels_some {C : ℕ} (hC : 2 ≤ C) :
    ∀ (fuel : ℕ) (ns : List RNode), 1 ≤ ns.length → ns.length ≤ fuel →
      ∃ r, buildLevels C fuel ns = some r := by
  intro fuel
  induction fuel with
  | zero => intro ns h1 h2; omega
  | succ fuel ih =>
    intro ns h1 h2
    match ns with
    | [n] => exact ⟨n, by simp [buildLevels]⟩
    | n1 :: n2 :: rest =>
      simp only [buildLevels]
      set total := (n1 :: n2 :: rest).length with htot
      have htot2 : 2 ≤ total := by simp [htot]
      set numNew := ceilDiv total C with hnn
      have hlen : (splitSizes (n1 :: n2 :: rest)
          ((List.range numNew).map fun i => total / numNew +
            if i < total % numNew then 1 else 0)).length = numNew := by
        rw [splitSizes_length]
        simp
      apply ih
      · rw [List.length_map, hlen]
        exact ceilDiv_pos (by omega) (by omega)
      · rw [List.length_map, hlen]
        have := ceilDiv_lt htot2 hC
        omega

theorem buildLevels_one_none :
    ∀ (fuel : ℕ) (ns : List RNode), 2 ≤ ns.length → buildLevels 1 fuel ns = none := by
  intro fuel
  induction fuel with
  | zero => intro ns h; rfl
  | succ fuel ih =>
    intro ns h
    match ns with
    | n1 :: n2 :: rest =>
      simp only [buildLevels]
      apply ih
      simp [splitSizes_length, ceilDiv_one]

/-! ## Leaf-phase lemmas -/

theorem ceilSqrtGo_ge (n : ℕ) : ∀ (fuel k : ℕ), k ≤ ceilSqrtGo n fuel k := by
  intro fuel
  induction fuel with
  | zero => intro k; simp [ceilSqrtGo]
  | succ fuel ih =>
    intro k
    simp only [ceilSqrtGo]
    split
    · exact le_rfl
    · exact le_trans (by omega) (ih (k + 1))

theorem ceilSqrt_pos {m : ℕ} (hm : 1 ≤ m) : 1 ≤ ceilSqrt m := by
  unfold ceilSqrt
  cases m with
  | zero => omega
  | succ f =>
    have : ceilSqrtGo (f + 1) (f + 1) 0 = ceilSqrtGo (f + 1) f 1 := by
      simp [ceilSqrtGo]
    rw [this]
    exact ceilSqrtGo_ge (f + 1) f 1

theorem blLeaves_map_pts (C : ℕ) (sorted : List Point) :
    (blLeaves C sorted).map RNode.pts
      = ((List.range (ceilSqrt (ceilDiv sorted.length C))).map
          (fun i => (sorted.drop
              (i * ceilDiv sorted.length (ceilSqrt (ceilDiv sorted.length C)))).take
            (ceilDiv sorted.length (ceilSqrt (ceilDiv sorted.length C))))).flatMap
          (fun sl => chunks C (stableSort yLe sl)) := by
  unfold blLeaves
  rw [List.map_flatMap]
  congr 1
  funext sl
  rw [List.map_map]
  calc (chunks C (stableSort yLe sl)).map (RNode.pts ∘ mkLeaf)
      = (chunks C (stableSort yLe sl)).map id := by
        apply List.map_congr_left
        intro g _
        exact pts_mkLeaf g
    _ = chunks C (stableSort yLe sl) := List.map_id _

theorem blLeaves_flatten_perm {C : ℕ} (hC : 1 ≤ C) (sorted : List Point) :
    ((blLeaves C sorted).map RNode.pts).flatten.Perm sorted := by
  rw [blLeaves_map_pts, flatten_flatMap]
  set slices := (List.range (ceilSqrt (ceilDiv sorted.length C))).map
      (fun i => (sorted.drop
          (i * ceilDiv sorted.length (ceilSqrt (ceilDiv sorted.length C)))).take
        (ceilDiv sorted.length (ceilSqrt (ceilDiv sorted.length C)))) with hsl
  have h1 : slices.map (fun sl => (chunks C (stableSort yLe sl)).flatten)
      = slices.map (stableSort yLe) := by
    apply List.map_congr_left
    intro sl _
    exact chunks_flatten _
  rw [h1]
  have h2 : ((slices.map (stableSort yLe)).flatten).Perm slices.flatten :=
    flatten_map_perm (fun x _ => stableSort_perm yLe x)
  have h3 : slices.flatten = sorted := by
    rw [hsl]
    apply slices_flatten
    rcases Nat.eq_zero_or_pos sorted.length with hz | hpos
    · omega
    · have hnl : 1 ≤ ceilDiv sorted.length C := ceilDiv_pos hpos hC
      have hns : 1 ≤ ceilSqrt (ceilDiv sorted.length C) := ceilSqrt_pos hnl
      exact le_mul_ceilDiv sorted.length hns
  rw [← h3]
  exact h2

theorem blLeaves_mem_pts {C : ℕ} {sorted : List Point} {x : List Point}
    (hx : x ∈ (blLeaves C sorted).map RNode.pts) :
    ∃ sl, x ∈ chunks C (stableSort yLe sl) := by
  rw [blLeaves_map_pts, List.mem_flatMap] at hx
  obtain ⟨sl, _, hmem⟩ := hx
  exact ⟨sl, hmem⟩

theorem blLeaves_pts_ne_nil {C : ℕ} {sorted : List Point} :
    ∀ x ∈ (blLeaves C sorted).map RNode.pts, x ≠ [] := by
  intro x hx
  obtain ⟨sl, hmem⟩ := blLeaves_mem_pts hx
  exact chunksGo_ne_nil x hmem

theorem blLeaves_pts_len_le {C : ℕ} (hC : 1 ≤ C) {sorted : List Point} :
    ∀ x ∈ (blLeaves C sorted).map RNode.pts, x.length ≤ C := by
  intro x hx
  obtain ⟨sl, hmem⟩ := blLeaves_mem_pts hx
  exact chunksGo_length_le hC x hmem

theorem blLeaves_length_le {C : ℕ} (hC : 1 ≤ C) (sorted : List Point) :
    (blLeaves C sorted).length ≤ sorted.length := by
  have h1 : (blLeaves C sorted).length = ((blLeaves C sorted).map RNode.pts).length := by
    simp
  rw [h1]
  have h2 := length_le_flatten_length (L := (blLeaves C sorted).map RNode.pts)
    blLeaves_pts_ne_nil
  have h3 := (blLeaves_flatten_perm hC sorted).length_eq
  omega

theorem blLeaves_pos {C : ℕ} (hC : 1 ≤ C) {sorted : List Point} (hs : sorted ≠ []) :
    1 ≤ (blLeaves C sorted).length := by
  by_contra h
  have hz : blLeaves C sorted = [] := by
    cases hb : blLeaves C sorted with
    | nil => rfl
    | cons a r => rw [hb] at h; simp at h
  have hpl := (blLeaves_flatten_perm hC sorted).length_eq
  rw [hz] at hpl
  simp only [List.map_nil, List.flatten_nil, List.length_nil] at hpl
  exact hs (List.eq_nil_of_length_eq_zero hpl.symm)

/-! ## Exactness preservation (bulk load and insert) -/

theorem toListC_ofListC (l : List (Sum Point RNode)) : toListC (ofListC l) = l := by
  induction l with
  | nil => rfl
  | cons c r ih => cases c <;> simp [ofListC, toListC, ih]

theorem toListC_snocP (cs : ChildList) (p : Point) :
    toListC (cs.snocP p) = toListC cs ++ [.inl p] := by
  induction cs using ChildList.recShallow with
  | nil => rfl
  | consP q r ih => simp [ChildList.snocP, toListC, ih]
  | consN n r ih => simp [ChildList.snocP, toListC, ih]

theorem toListC_snocN (cs : ChildList) (m : RNode) :
    toListC (cs.snocN m) = toListC cs ++ [.inr m] := by
  induction cs using ChildList.recShallow with
  | nil => rfl
  | consP q r ih => simp [ChildList.snocN, toListC, ih]
  | consN n r ih => simp [ChildList.snocN, toListC, ih]

theorem exactKids_iff (cs : ChildList) :
    exactKids cs = true ↔ ∀ n : RNode, .inr n ∈ toListC cs → exactN n = true := by
  induction cs using ChildList.recShallow with
  | nil => simp [exactKids, toListC]
  | consP p r ih => simpa [exactKids, toListC] using ih
  | consN n r ih =>
    simp only [exactKids, toListC, Bool.and_eq_true, List.mem_cons, ih]
    constructor
    · rintro ⟨hn, hr⟩ m (hm | hm)
      · cases hm; exact hn
      · exact hr m hm
    · intro h
      exact ⟨h n (Or.inl rfl), fun m hm => h m (Or.inr hm)⟩

theorem exactKids_snocP {cs : ChildList} (h : exactKids cs = true) (p : Point) :
    exactKids (cs.snocP p) = true := by
  rw [exactKids_iff] at h ⊢
  intro n hn
  rw [toListC_snocP] at hn
  simp only [List.mem_append, List.mem_singleton] at hn
  rcases hn with hn | hn
  · exact h n hn
  · cases hn

theorem exactKids_snocN {cs : ChildList} (h : exactKids cs = true) {m : RNode}
    (hm : exactN m = true) : exactKids (cs.snocN m) = true := by
  rw [exactKids_iff] at h ⊢
  intro n hn
  rw [toListC_snocN] at hn
  simp only [List.mem_append, List.mem_singleton] at hn
  rcases hn with hn | hn
  · exact h n hn
  · cases hn; exact hm

theorem exactN_mk_recompute {cs : ChildList} (h : exactKids cs = true) :
    exactN (RNode.mk cs (recompute cs)) = true := by
  simp [exactN, h]

theorem splitNode_exact {n : RNode} (h : exactKids n.kids = true) :
    exactN (splitNode n).1 = true ∧ exactN (splitNode n).2 = true := by
  have hmem : ∀ m : RNode, .inr m ∈ stableSort splitLe (toListC n.kids) → exactN m = true := by
    intro m hm
    exact (exactKids_iff n.kids).mp h m (mem_stableSort.mp hm)
  constructor
  · apply exactN_mk_recompute
    rw [exactKids_iff]
    intro m hm
    rw [toListC_ofListC] at hm
    exact hmem m (List.mem_of_mem_take hm)
  · apply exactN_mk_recompute
    rw [exactKids_iff]
    intro m hm
    rw [toListC_ofListC] at hm
    exact hmem m (List.mem_of_mem_drop hm)

mutual
theorem insNode_exact (C : ℕ) (p : Point) :
    ∀ (n : RNode), exactN n = true → exactRes (insNode C n p) = true
  | .mk cs m, h => by
    have hkids : exactKids cs = true := by
      simp only [exactN, Bool.and_eq_true] at h
      exact h.2
    simp only [insNode]
    split
    · have hk : exactKids (cs.snocP p) = true := exactKids_snocP hkids p
      split
      · have hs := splitNode_exact (n := RNode.mk (cs.snocP p) (recompute (cs.snocP p)))
          (by simpa [RNode.kids] using hk)
        simp [exactRes, hs.1, hs.2]
      · simpa [exactRes] using exactN_mk_recompute hk
    · split
      · simpa [exactRes] using h
      · rename_i i heq
        have hk2 : exactKids (insInKids C cs p i) = true := insInKids_exact C p cs i hkids
        split
        · have hs := splitNode_exact
            (n := RNode.mk (insInKids C cs p i) (recompute (insInKids C cs p i)))
            (by simpa [RNode.kids] using hk2)
          simp [exactRes, hs.1, hs.2]
        · simpa [exactRes] using exactN_mk_recompute hk2

theorem insInKids_exact (C : ℕ) (p : Point) :
    ∀ (cs : ChildList) (i : ℕ), exactKids cs = true → exactKids (insInKids C cs p i) = true
  | .nil, _, h => h
  | .consP q r, 0, h => h
  | .consN n r, 0, h => by
    simp only [exactKids, Bool.and_eq_true] at h
    have hres := insNode_exact C p n h.1
    simp only [insInKids]
    split
    · rename_i n' heq
      rw [heq] at hres
      simp only [exactRes] at hres
      simp [exactKids, hres, h.2]
    · rename_i a b heq
      rw [heq] at hres
      simp only [exactRes, Bool.and_eq_true] at hres
      simp [exactKids, hres.1, exactKids_snocN h.2 hres.2]
  | .consP q r, i + 1, h => by
    simp only [insInKids, exactKids]
    exact insInKids_exact C p r i h
  | .consN n r, i + 1, h => by
    simp only [exactKids, Bool.and_eq_true] at h
    simp only [insInKids, exactKids, Bool.and_eq_true]
    exact ⟨h.1, insInKids_exact C p r i h.2⟩
end

theorem insertOp_exact (C : ℕ) (t : RNode) (p : Point) (h : exactN t = true) :
    exactN (insertOp C t p) = true := by
  have hres := insNode_exact C p t h
  simp only [insertOp]
  split
  · rename_i n' heq
    rw [heq] at hres
    simpa [exactRes] using hres
  · rename_i a b heq
    rw [heq] at hres
    simp only [exactRes, Bool.and_eq_true] at hres
    apply exactN_mk_recompute
    simp [exactKids, hres.1, hres.2]

theorem mkLeaf_exact (grp : List Point) : exactN (mkLeaf grp) = true := by
  apply exactN_mk_recompute
  rw [exactKids_iff]
  intro n hn
  rw [toListC_ofListC] at hn
  simp at hn

theorem splitSizes_mem {l : List α} {sizes : List ℕ} :
    ∀ g ∈ splitSizes l sizes, ∀ x ∈ g, x ∈ l := by
  induction sizes generalizing l with
  | nil => simp [splitSizes]
  | cons s rest ih =>
    intro g hg x hx
    simp only [splitSizes, List.mem_cons] at hg
    rcases hg with rfl | hg
    · exact List.mem_of_mem_take hx
    · exact List.mem_of_mem_drop (ih g hg x hx)

theorem buildLevels_exact {C : ℕ} :
    ∀ (fuel : ℕ) (ns : List RNode) (r : RNode), (∀ n ∈ ns, exactN n = true) →
      buildLevels C fuel ns = some r → exactN r = true := by
  intro fuel
  induction fuel with
  | zero => intro ns r _ h; simp [buildLevels] at h
  | succ fuel ih =>
    intro ns r hall h
    match ns with
    | [n] =>
      simp only [buildLevels, Option.some_inj] at h
      subst h
      exact hall n (by simp)
    | [] => simp [buildLevels] at h
    | n1 :: n2 :: rest =>
      simp only [buildLevels] at h
      apply ih _ _ _ h
      intro n hn
      simp only [List.mem_map] at hn
      obtain ⟨grp, hgrp, rfl⟩ := hn
      apply exactN_mk_recompute
      rw [exactKids_iff]
      intro m hm
      rw [toListC_ofListC] at hm
      simp only [List.mem_map, Sum.inr.injEq] at hm
      obtain ⟨m2, hm2, rfl⟩ := hm
      exact hall m2 (splitSizes_mem grp hgrp m2 hm2)

theorem bulkLoad_exact {C : ℕ} {cur : RNode} {pts : List Point} {r : RNode}
    {l : List Point} (hcur : exactN cur = true) (h : bulkLoad C cur pts = .ok r l) :
    exactN r = true := by
  simp only [bulkLoad] at h
  split at h
  · cases h; exact hcur
  · split at h
    · cases h
    · split at h
      · rename_i root hb
        cases h
        apply buildLevels_exact _ _ _ _ hb
        intro n hn
        unfold blLeaves at hn
        simp only [List.mem_flatMap, List.mem_map] at hn
        obtain ⟨sl, _, g, _, rfl⟩ := hn
        exact mkLeaf_exact g
      · cases h

/-! ## Well-formedness: basic bridges -/

theorem isNil_iff {cs : ChildList} : cs.isNil = true ↔ cs = .nil := by
  cases cs <;> simp [ChildList.isNil]

theorem numK_toListC (cs : ChildList) : (toListC cs).length = cs.numK := by
  induction cs using ChildList.recShallow with
  | nil => rfl
  | consP p r ih => simp [toListC, ChildList.numK, ih]
  | consN n r ih => simp [toListC, ChildList.numK, ih]

theorem snocP_ne_nil (cs : ChildList) (p : Point) : cs.snocP p ≠ .nil := by
  cases cs <;> simp [ChildList.snocP]

theorem ofListC_ne_nil {l : List (Sum Point RNode)} (h : l ≠ []) : ofListC l ≠ .nil := by
  match l with
  | [] => exact absurd rfl h
  | .inl p :: r => simp [ofListC]
  | .inr n :: r => simp [ofListC]

theorem allPts_iff {cs : ChildList} :
    cs.allPts = true ↔ ∀ c ∈ toListC cs, ∃ p, c = Sum.inl p := by
  induction cs using ChildList.recShallow with
  | nil => simp [ChildList.allPts, toListC]
  | consP p r ih => simp [ChildList.allPts, toListC, ih]
  | consN n r ih =>
    simp only [ChildList.allPts, toListC, List.mem_cons, Bool.false_eq_true, false_iff]
    intro h
    obtain ⟨p, hp⟩ := h (.inr n) (Or.inl rfl)
    exact absurd hp (by simp)

theorem allNodes_iff {cs : ChildList} :
    cs.allNodes = true ↔ ∀ c ∈ toListC cs, ∃ n, c = Sum.inr n := by
  induction cs using ChildList.recShallow with
  | nil => simp [ChildList.allNodes, toListC]
  | consP p r ih =>
    simp only [ChildList.allNodes, toListC, List.mem_cons, Bool.false_eq_true, false_iff]
    intro h
    obtain ⟨n, hn⟩ := h (.inl p) (Or.inl rfl)
    exact absurd hn (by simp)
  | consN n r ih => simp [ChildList.allNodes, toListC, ih]

theorem wfN_none {cs : ChildList} (h : wfN (.mk cs none) = true) : cs = .nil := by
  simp only [wfN] at h
  exact isNil_iff.mp h

theorem wfN_some {cs : ChildList} {b : MBR} (h : wfN (.mk cs (some b)) = true) :
    cs ≠ .nil ∧ homogB cs = true ∧ wfKids b cs = true := by
  simp only [wfN, Bool.and_eq_true, Bool.not_eq_true'] at h
  refine ⟨?_, h.1.2, h.2⟩
  intro hn
  rw [hn] at h
  simp [ChildList.isNil] at h

theorem wfEach_of_wfKids {u : MBR} {cs : ChildList} (h : wfKids u cs = true) :
    wfEach cs = true := by
  induction cs using ChildList.recShallow with
  | nil => rfl
  | consP p r ih =>
    simp only [wfKids, Bool.and_eq_true] at h
    simpa [wfEach] using ih h.2
  | consN n r ih =>
    cases hm : n.mbrN with
    | none => simp only [wfKids, hm, Bool.and_eq_true] at h; simp at h
    | some bn =>
      simp only [wfKids, hm, Bool.and_eq_true] at h
      simp [wfEach, hm, h.1.2, ih h.2]

theorem wfEach_of_allPts {cs : ChildList} (h : cs.allPts = true) : wfEach cs = true := by
  induction cs using ChildList.recShallow with
  | nil => rfl
  | consP p r ih =>
    simp only [ChildList.allPts] at h
    simpa [wfEach] using ih h
  | consN n r ih => simp [ChildList.allPts] at h

theorem wfEach_iff {cs : ChildList} :
    wfEach cs = true ↔
      ∀ n : RNode, .inr n ∈ toListC cs → n.mbrN.isSome = true ∧ wfN n = true := by
  induction cs using ChildList.recShallow with
  | nil => simp [wfEach, toListC]
  | consP p r ih => simpa [wfEach, toListC] using ih
  | consN n r ih =>
    simp only [wfEach, toListC, Bool.and_eq_true, List.mem_cons, ih]
    constructor
    · rintro ⟨⟨h1, h2⟩, h3⟩ m (hm | hm)
      · obtain rfl : m = n := by simpa using hm
        exact ⟨h1, h2⟩
      · exact h3 m hm
    · intro h
      exact ⟨⟨(h n (Or.inl rfl)).1, (h n (Or.inl rfl)).2⟩, fun m hm => h m (Or.inr hm)⟩

theorem allPts_snocP {cs : ChildList} (h : cs.allPts = true) (p : Point) :
    (cs.snocP p).allPts = true := by
  induction cs using ChildList.recShallow with
  | nil => rfl
  | consP q r ih =>
    simp only [ChildList.allPts] at h
    simpa [ChildList.snocP, ChildList.allPts] using ih h
  | consN n r ih => simp [ChildList.allPts] at h

theorem allPts_eraseP {cs : ChildList} (h : cs.allPts = true) (p : Point) :
    (cs.eraseP p).allPts = true := by
  induction cs using ChildList.recShallow with
  | nil => rfl
  | consP q r ih =>
    simp only [ChildList.allPts] at h
    by_cases hq : q = p
    · simpa [ChildList.eraseP, hq] using h
    · simpa [ChildList.eraseP, hq, ChildList.allPts] using ih h
  | consN n r ih => simp [ChildList.allPts] at h

theorem allNodes_snocN {cs : ChildList} (h : cs.allNodes = true) (b : RNode) :
    (cs.snocN b).allNodes = true := by
  induction cs using ChildList.recShallow with
  | nil => rfl
  | consP q r ih => simp [ChildList.allNodes] at h
  | consN n r ih =>
    simp only [ChildList.allNodes] at h
    simpa [ChildList.snocN, ChildList.allNodes] using ih h

theorem wfEach_snocN {cs : ChildList} {b : RNode} (he : wfEach cs = true)
    (hs : b.mbrN.isSome = true) (hw : wfN b = true) : wfEach (cs.snocN b) = true := by
  induction cs using ChildList.recShallow with
  | nil => simp [ChildList.snocN, wfEach, hs, hw]
  | consP q r ih =>
    simp only [wfEach] at he
    simpa [ChildList.snocN, wfEach] using ih he
  | consN n r ih =>
    simp only [wfEach, Bool.and_eq_true] at he
    simp only [ChildList.snocN, wfEach, Bool.and_eq_true]
    exact ⟨he.1, ih he.2⟩

theorem allPts_of_homog_leaf {cs : ChildList} (hh : homogB cs = true)
    (hl : cs.isLeafK = true) : cs.allPts = true := by
  cases cs with
  | nil => simp [ChildList.isLeafK] at hl
  | consP p r => simpa [homogB, ChildList.allPts, ChildList.allNodes] using hh
  | consN n r => simp [ChildList.isLeafK] at hl

theorem allNodes_of_homog_internal {cs : ChildList} (hh : homogB cs = true)
    (hl : cs.isLeafK = false) (hne : cs ≠ .nil) : cs.allNodes = true := by
  cases cs with
  | nil => exact absurd rfl hne
  | consP p r => simp [ChildList.isLeafK] at hl
  | consN n r => simpa [homogB, ChildList.allPts, ChildList.allNodes] using hh

theorem ptsK_snocP (cs : ChildList) (p : Point) :
    (cs.snocP p).ptsK = cs.ptsK ++ [p] := by
  induction cs using ChildList.recShallow with
  | nil => rfl
  | consP q r ih => simp [ChildList.snocP, ChildList.ptsK, ih]
  | consN n r ih => simp [ChildList.snocP, ChildList.ptsK, ih]

theorem ptsK_snocN (cs : ChildList) (b : RNode) :
    (cs.snocN b).ptsK = cs.ptsK ++ b.pts := by
  induction cs using ChildList.recShallow with
  | nil => simp [ChildList.snocN, ChildList.ptsK]
  | consP q r ih => simp [ChildList.snocP, ChildList.snocN, ChildList.ptsK, ih]
  | consN n r ih => simp [ChildList.snocN, ChildList.ptsK, ih]

theorem ptsK_eraseP_perm {cs : ChildList} {p : Point} (hall : cs.allPts = true)
    (hc : cs.containsP p = true) : (p :: (cs.eraseP p).ptsK).Perm cs.ptsK := by
  induction cs using ChildList.recShallow with
  | nil => simp [ChildList.containsP] at hc
  | consP q r ih =>
    simp only [ChildList.allPts] at hall
    by_cases hq : q = p
    · subst hq
      simp [ChildList.eraseP, ChildList.ptsK]
    · have hc2 : r.containsP p = true := by
        simp only [ChildList.containsP, Bool.or_eq_true, decide_eq_true_eq] at hc
        tauto
      simp only [ChildList.eraseP, if_neg hq, ChildList.ptsK]
      exact (List.Perm.swap q p _).trans ((ih hall hc2).cons q)
  | consN n r ih => simp [ChildList.allPts] at hall

theorem mem_containsP {cs : ChildList} {p : Point} (hall : cs.allPts = true)
    (hp : p ∈ cs.ptsK) : cs.containsP p = true := by
  induction cs using ChildList.recShallow with
  | nil => simp [ChildList.ptsK] at hp
  | consP q r ih =>
    simp only [ChildList.allPts] at hall
    simp only [ChildList.ptsK, List.mem_cons] at hp
    rcases hp with rfl | hp
    · simp [ChildList.containsP]
    · simp [ChildList.containsP, ih hall hp]
  | consN n r ih => simp [ChildList.allPts] at hall

theorem ptsK_eq_flatten (cs : ChildList) :
    cs.ptsK = ((toListC cs).map childPts).flatten := by
  induction cs using ChildList.recShallow with
  | nil => rfl
  | consP p r ih => simp [ChildList.ptsK, toListC, childPts, ih]
  | consN n r ih => simp [ChildList.ptsK, toListC, childPts, ih]

theorem perm_flatten {L1 L2 : List (List α)} (h : L1.Perm L2) :
    L1.flatten.Perm L2.flatten := by
  induction h with
  | nil => exact List.Perm.refl _
  | cons x _ ih => simpa [List.flatten_cons] using ih.append_left x
  | swap x y l =>
    simp only [List.flatten_cons, ← List.append_assoc]
    exact (List.perm_append_comm).append_right _
  | trans _ _ ih1 ih2 => exact ih1.trans ih2

theorem splitNode_pts (n : RNode) :
    ((splitNode n).1.pts ++ (splitNode n).2.pts).Perm n.pts := by
  cases n with
  | mk cs m =>
    simp only [splitNode, RNode.kids, RNode.pts]
    rw [ptsK_eq_flatten, ptsK_eq_flatten, toListC_ofListC, toListC_ofListC,
      ptsK_eq_flatten cs, ← List.flatten_append, ← List.map_append, List.take_append_drop]
    exact perm_flatten ((stableSort_perm splitLe (toListC cs)).map childPts)

theorem recompute_covers_of {cs : ChildList} {u : MBR} {c : Sum Point RNode} {bc : MBR}
    (hu : recompute cs = some u) (hmem : c ∈ toListC cs)
    (hbox : boxOfChild c = some bc) : u.coversB bc = true := by
  obtain ⟨v, hv, hcov⟩ := recompute_covers hmem hbox
  rw [hu, Option.some_inj] at hv
  rw [hv]
  exact hcov

theorem recompute_isSome {cs : ChildList} (he : wfEach cs = true) (hne : cs ≠ .nil) :
    (recompute cs).isSome = true := by
  cases cs with
  | nil => exact absurd rfl hne
  | consP p r =>
    obtain ⟨u, hu, -⟩ :=
      @recompute_covers (ChildList.consP p r) (.inl p) p.mbrOf (by simp [toListC]) rfl
    rw [hu]
    rfl
  | consN n r =>
    simp only [wfEach, Bool.and_eq_true] at he
    cases hb : n.mbrN with
    | none => rw [hb] at he; simp at he
    | some b =>
      obtain ⟨u, hu, -⟩ :=
        @recompute_covers (ChildList.consN n r) (.inr n) b (by simp [toListC]) hb
      rw [hu]
      rfl

theorem wfKids_of_covers {u : MBR} {cs : ChildList} (he : wfEach cs = true)
    (hcov : ∀ c ∈ toListC cs, ∀ bc, boxOfChild c = some bc → u.coversB bc = true) :
    wfKids u cs = true := by
  induction cs using ChildList.recShallow with
  | nil => rfl
  | consP p r ih =>
    simp only [wfEach] at he
    simp only [wfKids, Bool.and_eq_true]
    refine ⟨hcov (.inl p) (by simp [toListC]) p.mbrOf rfl, ih he ?_⟩
    intro c hc bc hbc
    exact hcov c (by simp [toListC, hc]) bc hbc
  | consN n r ih =>
    simp only [wfEach, Bool.and_eq_true] at he
    obtain ⟨⟨hs, hw⟩, her⟩ := he
    cases hb : n.mbrN with
    | none => rw [hb] at hs; simp at hs
    | some bn =>
      simp only [wfKids, hb, Bool.and_eq_true]
      refine ⟨⟨hcov (.inr n) (by simp [toListC]) bn (by simp [boxOfChild, hb]), hw⟩, ih her ?_⟩
      intro c hc bc hbc
      exact hcov c (by simp [toListC, hc]) bc hbc

theorem wfSub_mk_recompute {cs : ChildList} (hh : homogB cs = true)
    (he : wfEach cs = true) : wfSub (RNode.mk cs (recompute cs)) := by
  refine ⟨hh, he, ?_, ?_⟩
  · intro u hu
    apply wfKids_of_covers he
    intro c hc bc hbc
    exact recompute_covers_of hu hc hbc
  · intro hne
    exact recompute_isSome he hne

theorem wfN_of_wfSub {n : RNode} (h : wfSub n) (hnil : n.kids = .nil → n.mbrN = none) :
    wfN n = true := by
  obtain ⟨hh, he, hcov, hsome⟩ := h
  cases n with
  | mk cs m =>
    simp only [RNode.kids, RNode.mbrN] at hh he hcov hsome hnil
    by_cases hcs : cs = .nil
    · subst hcs
      rw [hnil rfl]
      rfl
    · have hsm := hsome hcs
      cases m with
      | none => simp at hsm
      | some b =>
        simp only [wfN, Bool.and_eq_true, Bool.not_eq_true']
        refine ⟨⟨?_, hh⟩, hcov b rfl⟩
        cases cs with
        | nil => exact absurd rfl hcs
        | consP _ _ => rfl
        | consN _ _ => rfl

theorem wfSub_of_wfN {n : RNode} (h : wfN n = true) : wfSub n := by
  cases n with
  | mk cs m =>
    cases m with
    | none =>
      have hc := wfN_none h
      subst hc
      exact ⟨rfl, rfl, fun u hu => by simp [RNode.mbrN] at hu, fun hne => absurd rfl hne⟩
    | some b =>
      obtain ⟨hne, hh, hk⟩ := wfN_some h
      refine ⟨hh, wfEach_of_wfKids hk, ?_, fun _ => rfl⟩
      intro u hu
      simp only [RNode.mbrN, Option.some_inj] at hu
      subst hu
      exact hk

theorem wfN_recompute {cs : ChildList} (hh : homogB cs = true) (he : wfEach cs = true) :
    wfN (RNode.mk cs (recompute cs)) = true := by
  by_cases hcs : cs = .nil
  · subst hcs
    rfl
  · exact wfN_of_wfSub (wfSub_mk_recompute hh he) (fun hk => absurd hk hcs)

theorem SubC_refl (cs : ChildList) : SubC cs cs := by
  induction cs using ChildList.recShallow with
  | nil => exact .nil
  | consP p r ih => exact .consP p ih
  | consN n r ih => exact .consN n ih

theorem SubC_sublist {a w : ChildList} (h : SubC a w) :
    (toListC a).Sublist (toListC w) := by
  induction h with
  | nil => exact List.Sublist.refl _
  | consP p _ ih => exact List.Sublist.cons₂ _ ih
  | consN n _ ih => exact List.Sublist.cons₂ _ ih
  | skipN n _ ih => exact List.Sublist.cons _ ih

theorem wfSub_mk_of_SubC {a w : ChildList} (hsub : SubC a w)
    (hall : a.allNodes = true) (he : wfEach a = true) :
    wfSub (RNode.mk a (recompute w)) := by
  have hmem : ∀ c ∈ toListC a, c ∈ toListC w :=
    fun c hc => (SubC_sublist hsub).subset hc
  refine ⟨by simp [homogB, RNode.kids, hall], he, ?_, ?_⟩
  · intro u hu
    apply wfKids_of_covers he
    intro c hc bc hbc
    exact recompute_covers_of hu (hmem c hc) hbc
  · intro hne
    cases a with
    | nil => exact absurd rfl hne
    | consP q r => simp [ChildList.allNodes] at hall
    | consN n0 r =>
      simp only [wfEach, Bool.and_eq_true] at he
      cases hb0 : n0.mbrN with
      | none => rw [hb0] at he; simp at he
      | some b0 =>
        obtain ⟨v, hv, -⟩ := recompute_covers
          (hmem (.inr n0) (by simp [toListC])) hb0
        simp only [RNode.mbrN]
        rw [hv]
        rfl

mutual
theorem pts_ne_nil_N : ∀ n : RNode, wfN n = true → n.mbrN.isSome = true → n.pts ≠ []
  | .mk cs m, h, hs => by
    cases m with
    | none => simp [RNode.mbrN] at hs
    | some b =>
      obtain ⟨hne, -, hk⟩ := wfN_some h
      simpa [RNode.pts] using ptsK_ne_nil_K b cs hk hne

theorem ptsK_ne_nil_K : ∀ (u : MBR) (cs : ChildList), wfKids u cs = true → cs ≠ .nil →
    cs.ptsK ≠ []
  | u, .nil, _, hne => absurd rfl hne
  | u, .consP q r, _, _ => by simp [ChildList.ptsK]
  | u, .consN n r, h, _ => by
    simp only [wfKids, Bool.and_eq_true] at h
    have hm := h.1.1
    have hsome : n.mbrN.isSome = true := by
      cases hmm : n.mbrN with
      | none => rw [hmm] at hm; simp at hm
      | some bn => simp [hmm]
    have hne2 := pts_ne_nil_N n h.1.2 hsome
    cases hpts : n.pts with
    | nil => exact absurd hpts hne2
    | cons a l => simp [ChildList.ptsK, hpts]
end

mutual
theorem pts_covered_N : ∀ n : RNode, wfN n = true → ∀ p ∈ n.pts,
    ∃ b, n.mbrN = some b ∧ b.coversB p.mbrOf = true
  | .mk cs m, h, p, hp => by
    cases m with
    | none =>
      have hc := wfN_none h
      subst hc
      simp [RNode.pts, ChildList.ptsK] at hp
    | some b =>
      obtain ⟨-, -, hk⟩ := wfN_some h
      exact ⟨b, rfl, ptsK_covered_K b cs hk p (by simpa [RNode.pts] using hp)⟩

theorem ptsK_covered_K : ∀ (u : MBR) (cs : ChildList), wfKids u cs = true →
    ∀ p ∈ cs.ptsK, u.coversB p.mbrOf = true
  | u, .nil, _, p, hp => by simp [ChildList.ptsK] at hp
  | u, .consP q r, h, p, hp => by
    simp only [wfKids, Bool.and_eq_true] at h
    simp only [ChildList.ptsK, List.mem_cons] at hp
    rcases hp with rfl | hp
    · exact h.1
    · exact ptsK_covered_K u r h.2 p hp
  | u, .consN n r, h, p, hp => by
    simp only [wfKids, Bool.and_eq_true] at h
    simp only [ChildList.ptsK, List.mem_append] at hp
    rcases hp with hp | hp
    · obtain ⟨bn, hbn, hcov⟩ := pts_covered_N n h.1.2 p hp
      have hm := h.1.1
      rw [hbn] at hm
      exact coversB_trans hm hcov
    · exact ptsK_covered_K u r h.2 p hp
end
/-! ## The choose-leaf scan: totality and validity of the chosen index -/

theorem chooseGo_ne_none (p : Point) :
    ∀ (cs : ChildList) (i j : ℕ) (best : Option ℤ),
      chooseGo p cs i (some j) best ≠ none := by
  intro cs
  induction cs using ChildList.recShallow with
  | nil => intro i j best h; simp [chooseGo] at h
  | consP q r ih =>
    intro i j best h
    exact ih (i + 1) j best (by simpa [chooseGo] using h)
  | consN n r ih =>
    intro i j best h
    cases hm : n.mbrN with
    | none =>
      simp only [chooseGo, hm] at h
      exact ih (i + 1) j best h
    | some b =>
      cases hinc : b.includesB p with
      | true =>
        simp only [chooseGo, hm, hinc, if_true] at h
        exact ih (i + 1) i (some 0) h
      | false =>
        cases best with
        | none =>
          simp only [chooseGo, hm, hinc, Bool.false_eq_true, if_false] at h
          exact ih (i + 1) i _ h
        | some bv =>
          by_cases hlt : b.enlargedAreaQ p - b.areaQ < bv
          · simp only [chooseGo, hm, hinc, Bool.false_eq_true, if_false, if_pos hlt] at h
            exact ih (i + 1) i _ h
          · simp only [chooseGo, hm, hinc, Bool.false_eq_true, if_false, if_neg hlt] at h
            exact ih (i + 1) j _ h

theorem chooseScan_isSome {cs : ChildList} {p : Point} (hall : cs.allNodes = true)
    (he : wfEach cs = true) (hne : cs ≠ .nil) : (chooseScan cs p).isSome = true := by
  cases cs with
  | nil => exact absurd rfl hne
  | consP q r => simp [ChildList.allNodes] at hall
  | consN n r =>
    simp only [wfEach, Bool.and_eq_true] at he
    cases hb : n.mbrN with
    | none => rw [hb] at he; simp at he
    | some b =>
      simp only [chooseScan, chooseGo, hb]
      cases hinc : b.includesB p with
      | true =>
        simp only [hinc, if_true]
        cases hgo : chooseGo p r 1 (some 0) (some 0) with
        | none => exact absurd hgo (chooseGo_ne_none p r 1 0 (some 0))
        | some j => rfl
      | false =>
        simp only [hinc, Bool.false_eq_true, if_false]
        cases hgo : chooseGo p r 1 (some 0) (some (b.enlargedAreaQ p - b.areaQ)) with
        | none => exact absurd hgo (chooseGo_ne_none p r 1 0 _)
        | some j => rfl

theorem chooseGo_mem (p : Point) :
    ∀ (cs : ChildList) (i0 : ℕ) (ch : Option ℕ) (best : Option ℤ) (j : ℕ),
      chooseGo p cs i0 ch best = some j →
      ch = some j ∨ ∃ k n0 b0, (toListC cs)[k]? = some (Sum.inr n0) ∧
        n0.mbrN = some b0 ∧ j = i0 + k := by
  intro cs
  induction cs using ChildList.recShallow with
  | nil =>
    intro i0 ch best j h
    exact Or.inl (by simpa [chooseGo] using h)
  | consP q r ih =>
    intro i0 ch best j h
    simp only [chooseGo] at h
    rcases ih (i0 + 1) ch best j h with hc | ⟨k, n0, b0, hget, hb, rfl⟩
    · exact Or.inl hc
    · exact Or.inr ⟨k + 1, n0, b0, by simpa [toListC] using hget, hb, by omega⟩
  | consN n r ih =>
    intro i0 ch best j h
    cases hm : n.mbrN with
    | none =>
      simp only [chooseGo, hm] at h
      rcases ih (i0 + 1) ch best j h with hc | ⟨k, n0, b0, hget, hb, rfl⟩
      · exact Or.inl hc
      · exact Or.inr ⟨k + 1, n0, b0, by simpa [toListC] using hget, hb, by omega⟩
    | some b =>
      have hsub : ∀ (ch2 : Option ℕ) (best2 : Option ℤ),
          chooseGo p r (i0 + 1) ch2 best2 = some j →
          ch2 = some j ∨ ∃ k n0 b0,
            (toListC (ChildList.consN n r))[k]? = some (Sum.inr n0) ∧
            n0.mbrN = some b0 ∧ j = i0 + k := by
        intro ch2 best2 hgo
        rcases ih (i0 + 1) ch2 best2 j hgo with hc | ⟨k, n0, b0, hget, hb, rfl⟩
        · exact Or.inl hc
        · exact Or.inr ⟨k + 1, n0, b0, by simpa [toListC] using hget, hb, by omega⟩
      have hhit : ∀ (best2 : Option ℤ), chooseGo p r (i0 + 1) (some i0) best2 = some j →
          ∃ k n0 b0, (toListC (ChildList.consN n r))[k]? = some (Sum.inr n0) ∧
            n0.mbrN = some b0 ∧ j = i0 + k := by
        intro best2 hgo
        rcases hsub (some i0) best2 hgo with hc | hr
        · refine ⟨0, n, b, by simp [toListC], hm, ?_⟩
          simp only [Option.some_inj] at hc
          omega
        · exact hr
      cases hinc : b.includesB p with
      | true =>
        simp only [chooseGo, hm, hinc, if_true] at h
        exact Or.inr (hhit _ h)
      | false =>
        cases best with
        | none =>
          simp only [chooseGo, hm, hinc, Bool.false_eq_true, if_false] at h
          exact Or.inr (hhit _ h)
        | some bv =>
          by_cases hlt : b.enlargedAreaQ p - b.areaQ < bv
          · simp only [chooseGo, hm, hinc, Bool.false_eq_true, if_false, if_pos hlt] at h
            exact Or.inr (hhit _ h)
          · simp only [chooseGo, hm, hinc, Bool.false_eq_true, if_false, if_neg hlt] at h
            exact hsub ch (some bv) h

theorem chooseScan_valid {cs : ChildList} {p : Point} {i : ℕ}
    (h : chooseScan cs p = some i) :
    ∃ n0 b0, (toListC cs)[i]? = some (Sum.inr n0) ∧ n0.mbrN = some b0 := by
  rcases chooseGo_mem p cs 0 none none i h with hc | ⟨k, n0, b0, hget, hb, rfl⟩
  · simp at hc
  · exact ⟨n0, b0, by simpa using hget, hb⟩

/-! ## Insertion preserves well-formedness and adds the point -/

theorem insInKids_ne_nil (C : ℕ) (p : Point) (cs : ChildList) (i : ℕ)
    (hne : cs ≠ .nil) : insInKids C cs p i ≠ .nil := by
  match cs, i with
  | .nil, _ => exact absurd rfl hne
  | .consP q r, 0 => simp [insInKids]
  | .consN n r, 0 =>
    rcases hres : insNode C n p with n1 | ⟨a, b⟩ <;> simp [insInKids, hres]
  | .consP q r, j + 1 => simp [insInKids]
  | .consN n r, j + 1 => simp [insInKids]

theorem allNodes_insInKids (C : ℕ) (p : Point) :
    ∀ (cs : ChildList) (i : ℕ), cs.allNodes = true → (insInKids C cs p i).allNodes = true
  | .nil, _, h => h
  | .consP q r, _, h => by simp [ChildList.allNodes] at h
  | .consN n r, 0, h => by
    simp only [ChildList.allNodes] at h
    simp only [insInKids]
    split
    · simpa [ChildList.allNodes] using h
    · simpa [ChildList.allNodes] using allNodes_snocN h _
  | .consN n r, j + 1, h => by
    simp only [ChildList.allNodes] at h
    simpa [insInKids, ChildList.allNodes] using allNodes_insInKids C p r j h

theorem splitNode_wf {cs : ChildList} {m : Option MBR} (hh : homogB cs = true)
    (he : wfEach cs = true) (hlen : 3 ≤ cs.numK) :
    wfRes (.inr (splitNode (RNode.mk cs m))) = true := by
  simp only [splitNode, RNode.kids]
  have hperm : (stableSort splitLe (toListC cs)).Perm (toListC cs) :=
    stableSort_perm splitLe (toListC cs)
  have hlen2 : (stableSort splitLe (toListC cs)).length = cs.numK := by
    rw [hperm.length_eq, numK_toListC]
  have hmemL : ∀ c ∈ stableSort splitLe (toListC cs), c ∈ toListC cs :=
    fun c hc => hperm.subset hc
  have hhomog : ∀ sub : List (Sum Point RNode), (∀ c ∈ sub, c ∈ toListC cs) →
      homogB (ofListC sub) = true := by
    intro sub hs
    have hh2 := hh
    simp only [homogB, Bool.or_eq_true] at hh2 ⊢
    rcases hh2 with hp | hn
    · refine Or.inl (allPts_iff.mpr ?_)
      intro c hc
      rw [toListC_ofListC] at hc
      exact allPts_iff.mp hp c (hs c hc)
    · refine Or.inr (allNodes_iff.mpr ?_)
      intro c hc
      rw [toListC_ofListC] at hc
      exact allNodes_iff.mp hn c (hs c hc)
  have heach : ∀ sub : List (Sum Point RNode), (∀ c ∈ sub, c ∈ toListC cs) →
      wfEach (ofListC sub) = true := by
    intro sub hs
    refine wfEach_iff.mpr ?_
    intro n hn
    rw [toListC_ofListC] at hn
    exact wfEach_iff.mp he n (hs _ hn)
  have htake : ∀ c ∈ (stableSort splitLe (toListC cs)).take
      ((stableSort splitLe (toListC cs)).length / 2), c ∈ toListC cs :=
    fun c hc => hmemL c (List.mem_of_mem_take hc)
  have hdrop : ∀ c ∈ (stableSort splitLe (toListC cs)).drop
      ((stableSort splitLe (toListC cs)).length / 2), c ∈ toListC cs :=
    fun c hc => hmemL c (List.mem_of_mem_drop hc)
  have hne1 : ofListC ((stableSort splitLe (toListC cs)).take
      ((stableSort splitLe (toListC cs)).length / 2)) ≠ .nil := by
    apply ofListC_ne_nil
    apply List.ne_nil_of_length_pos
    rw [List.length_take]
    omega
  have hne2 : ofListC ((stableSort splitLe (toListC cs)).drop
      ((stableSort splitLe (toListC cs)).length / 2)) ≠ .nil := by
    apply ofListC_ne_nil
    apply List.ne_nil_of_length_pos
    rw [List.length_drop]
    omega
  simp only [wfRes, RNode.mbrN, Bool.and_eq_true]
  exact ⟨⟨⟨wfN_recompute (hhomog _ htake) (heach _ htake),
      recompute_isSome (heach _ htake) hne1⟩,
      wfN_recompute (hhomog _ hdrop) (heach _ hdrop)⟩,
      recompute_isSome (heach _ hdrop) hne2⟩

mutual
theorem insNode_wf (C : ℕ) (p : Point) (hC : 2 ≤ C) :
    ∀ n : RNode, wfSub n → wfRes (insNode C n p) = true
  | .mk cs m, hsub => by
    obtain ⟨hh, he, hcov, hsome⟩ := hsub
    simp only [RNode.kids, RNode.mbrN] at hh he hcov hsome
    simp only [insNode]
    split
    · rename_i hleaf
      simp only [Bool.or_eq_true] at hleaf
      have hpts : cs.allPts = true := by
        rcases hleaf with h1 | h2
        · exact allPts_of_homog_leaf hh h1
        · rw [isNil_iff.mp h2]; rfl
      have hall2 : (cs.snocP p).allPts = true := allPts_snocP hpts p
      have he2 : wfEach (cs.snocP p) = true := wfEach_of_allPts hall2
      have hh2 : homogB (cs.snocP p) = true := by simp [homogB, hall2]
      split
      · rename_i hcap
        apply splitNode_wf hh2 he2
        omega
      · simp only [wfRes, RNode.mbrN, Bool.and_eq_true]
        exact ⟨wfN_recompute hh2 he2, recompute_isSome he2 (snocP_ne_nil cs p)⟩
    · rename_i hleaf
      simp only [Bool.or_eq_true, not_or, Bool.not_eq_true] at hleaf
      obtain ⟨hlf, hnl⟩ := hleaf
      have hne : cs ≠ .nil := by
        intro h0
        rw [h0] at hnl
        simp [ChildList.isNil] at hnl
      have hnodes : cs.allNodes = true := allNodes_of_homog_internal hh hlf hne
      split
      · have hsm := hsome hne
        cases m with
        | none => simp at hsm
        | some b =>
          have hwf : wfN (RNode.mk cs (some b)) = true := by
            simp only [wfN, Bool.and_eq_true, Bool.not_eq_true']
            refine ⟨⟨?_, hh⟩, hcov b rfl⟩
            cases cs with
            | nil => exact absurd rfl hne
            | consP _ _ => rfl
            | consN _ _ => rfl
          simp [wfRes, hwf, RNode.mbrN]
      · rename_i i hscan
        have he2 : wfEach (insInKids C cs p i) = true := insInKids_wf C p hC cs i hnodes he
        have hall2 : (insInKids C cs p i).allNodes = true :=
          allNodes_insInKids C p cs i hnodes
        have hh2 : homogB (insInKids C cs p i) = true := by simp [homogB, hall2]
        split
        · rename_i hcap
          apply splitNode_wf hh2 he2
          omega
        · simp only [wfRes, RNode.mbrN, Bool.and_eq_true]
          exact ⟨wfN_recompute hh2 he2,
            recompute_isSome he2 (insInKids_ne_nil C p cs i hne)⟩

theorem insInKids_wf (C : ℕ) (p : Point) (hC : 2 ≤ C) :
    ∀ (cs : ChildList) (i : ℕ), cs.allNodes = true → wfEach cs = true →
      wfEach (insInKids C cs p i) = true
  | .nil, _, _, he => he
  | .consP q r, 0, hall, _ => by simp [ChildList.allNodes] at hall
  | .consN n r, 0, hall, he => by
    simp only [wfEach, Bool.and_eq_true] at he
    have hres := insNode_wf C p hC n (wfSub_of_wfN he.1.2)
    simp only [insInKids]
    split
    · rename_i n1 heq
      rw [heq] at hres
      simp only [wfRes, Bool.and_eq_true] at hres
      simp only [wfEach, Bool.and_eq_true]
      exact ⟨⟨hres.2, hres.1⟩, he.2⟩
    · rename_i a b heq
      rw [heq] at hres
      simp only [wfRes, Bool.and_eq_true] at hres
      simp only [wfEach, Bool.and_eq_true]
      exact ⟨⟨hres.1.1.2, hres.1.1.1⟩, wfEach_snocN he.2 hres.2 hres.1.2⟩
  | .consP q r, j + 1, hall, _ => by simp [ChildList.allNodes] at hall
  | .consN n r, j + 1, hall, he => by
    simp only [ChildList.allNodes] at hall
    simp only [wfEach, Bool.and_eq_true] at he
    simp only [insInKids, wfEach, Bool.and_eq_true]
    exact ⟨he.1, insInKids_wf C p hC r j hall he.2⟩
end

theorem perm_snoc (a : α) (l : List α) : (l ++ [a]).Perm (a :: l) := by
  induction l with
  | nil => exact List.Perm.refl _
  | cons b t ih => exact (ih.cons b).trans (List.Perm.swap a b t)

theorem perm_assoc (A B Q : List α) : (A ++ (B ++ Q)).Perm ((A ++ B) ++ Q) := by
  rw [List.append_assoc]

theorem ptsRes_inr (x : RNode × RNode) : ptsRes (.inr x) = x.1.pts ++ x.2.pts := rfl

theorem splitNode_ptsRes {cs : ChildList} {m : Option MBR} :
    (ptsRes (.inr (splitNode (RNode.mk cs m)))).Perm (RNode.mk cs m).pts := by
  rw [ptsRes_inr]
  exact splitNode_pts _

mutual
theorem insNode_pts (C : ℕ) (p : Point) (hC : 2 ≤ C) :
    ∀ n : RNode, wfSub n → (ptsRes (insNode C n p)).Perm (p :: n.pts)
  | .mk cs m, hsub => by
    obtain ⟨hh, he, hcov, hsome⟩ := hsub
    simp only [RNode.kids, RNode.mbrN] at hh he hcov hsome
    simp only [insNode]
    split
    · split
      · refine splitNode_ptsRes.trans ?_
        simp only [RNode.pts, ptsK_snocP]
        exact perm_snoc p cs.ptsK
      · simp only [ptsRes, RNode.pts, ptsK_snocP]
        exact perm_snoc p cs.ptsK
    · rename_i hleaf
      simp only [Bool.or_eq_true, not_or, Bool.not_eq_true] at hleaf
      obtain ⟨hlf, hnl⟩ := hleaf
      have hne : cs ≠ .nil := by
        intro h0
        rw [h0] at hnl
        simp [ChildList.isNil] at hnl
      have hnodes : cs.allNodes = true := allNodes_of_homog_internal hh hlf hne
      split
      · rename_i hscan
        have hs := @chooseScan_isSome cs p hnodes he hne
        rw [hscan] at hs
        simp at hs
      · rename_i i hscan
        obtain ⟨n0, b0, hget, -⟩ := chooseScan_valid hscan
        have hrec := insInKids_pts C p hC cs i hnodes he ⟨n0, hget⟩
        split
        · refine splitNode_ptsRes.trans ?_
          simpa only [RNode.pts] using hrec
        · simpa only [ptsRes, RNode.pts] using hrec

theorem insInKids_pts (C : ℕ) (p : Point) (hC : 2 ≤ C) :
    ∀ (cs : ChildList) (i : ℕ), cs.allNodes = true → wfEach cs = true →
      (∃ n0, (toListC cs)[i]? = some (Sum.inr n0)) →
      ((insInKids C cs p i).ptsK).Perm (p :: cs.ptsK)
  | .nil, i, _, _, hget => by
    obtain ⟨n0, h0⟩ := hget
    simp [toListC] at h0
  | .consP q r, 0, hall, _, _ => by simp [ChildList.allNodes] at hall
  | .consN n r, 0, hall, he, _ => by
    simp only [wfEach, Bool.and_eq_true] at he
    have hres := insNode_pts C p hC n (wfSub_of_wfN he.1.2)
    simp only [insInKids]
    split
    · rename_i n1 heq
      rw [heq] at hres
      simp only [ptsRes] at hres
      simp only [ChildList.ptsK]
      exact hres.append_right _
    · rename_i a b heq
      rw [heq] at hres
      simp only [ptsRes] at hres
      simp only [ChildList.ptsK, ptsK_snocN]
      refine ((List.Perm.append_left a.pts List.perm_append_comm).trans
        (perm_assoc a.pts b.pts r.ptsK)).trans ?_
      exact hres.append_right _
  | .consP q r, j + 1, hall, _, _ => by simp [ChildList.allNodes] at hall
  | .consN n r, j + 1, hall, he, hget => by
    simp only [ChildList.allNodes] at hall
    simp only [wfEach, Bool.and_eq_true] at he
    obtain ⟨n0, h0⟩ := hget
    have h0r : (toListC r)[j]? = some (Sum.inr n0) := by simpa [toListC] using h0
    have ih := insInKids_pts C p hC r j hall he.2 ⟨n0, h0r⟩
    simp only [insInKids, ChildList.ptsK]
    refine (List.Perm.append_left n.pts ih).trans ?_
    exact List.perm_middle
end

theorem insertOp_wf {C : ℕ} (hC : 2 ≤ C) (t : RNode) (p : Point) (h : wfSub t) :
    wfN (insertOp C t p) = true := by
  have hres := insNode_wf C p hC t h
  simp only [insertOp]
  split
  · rename_i n1 heq
    rw [heq] at hres
    simp only [wfRes, Bool.and_eq_true] at hres
    exact hres.1
  · rename_i a b heq
    rw [heq] at hres
    simp only [wfRes, Bool.and_eq_true] at hres
    apply wfN_recompute
    · rfl
    · simp only [wfEach, Bool.and_eq_true]
      exact ⟨⟨hres.1.1.2, hres.1.1.1⟩, ⟨hres.2, hres.1.2⟩, trivial⟩

theorem insertOp_pts {C : ℕ} (hC : 2 ≤ C) (t : RNode) (p : Point) (h : wfSub t) :
    (insertOp C t p).pts.Perm (p :: t.pts) := by
  have hres := insNode_pts C p hC t h
  simp only [insertOp]
  split
  · rename_i n1 heq
    rw [heq] at hres
    simpa [ptsRes] using hres
  · rename_i a b heq
    rw [heq] at hres
    simp only [ptsRes] at hres
    simpa [RNode.pts, ChildList.ptsK] using hres
/-! ## Deletion: the fused find/condense walk preserves the invariant
and removes exactly one copy of the point (modulo the reinsertion
queue). -/

mutual
theorem delFindN_wf (C : ℕ) (p : Point) (hC : 2 ≤ C) :
    ∀ (n : RNode) (x : RNode × List Point), wfN n = true → delFindN C n p = some x →
      wfSub x.1 ∧ (x.1.kids = .nil → x.1.mbrN = none ∨ x.2 ≠ []) ∧
        (p :: (x.1.pts ++ x.2)).Perm n.pts
  | .mk cs m, x, hw, hfind => by
    simp only [delFindN] at hfind
    split at hfind
    · exact absurd hfind (by simp)
    · rename_i hnil
      split at hfind
      · rename_i hleaf
        split at hfind
        · rename_i hcont
          simp only [Option.some_inj] at hfind
          subst hfind
          have hmb : ∃ b, m = some b := by
            cases m with
            | none => exact absurd (isNil_iff.mpr (wfN_none hw)) hnil
            | some b => exact ⟨b, rfl⟩
          obtain ⟨b, rfl⟩ := hmb
          obtain ⟨hne, hh, hk⟩ := wfN_some hw
          have hallP : cs.allPts = true := allPts_of_homog_leaf hh hleaf
          have hall2 : (cs.eraseP p).allPts = true := allPts_eraseP hallP p
          refine ⟨wfSub_mk_recompute (by simp [homogB, hall2]) (wfEach_of_allPts hall2),
            ?_, ?_⟩
          · intro h0
            simp only [RNode.kids] at h0
            left
            simp only [RNode.mbrN, h0]
            rfl
          · simp only [RNode.pts, List.append_nil]
            exact ptsK_eraseP_perm hallP hcont
        · exact absurd hfind (by simp)
      · rename_i hleaf
        rcases hk : delFindKids C cs p with _ | ⟨w, a, qu⟩
        · simp [hk] at hfind
        · simp only [hk, Option.some_inj] at hfind
          subst hfind
          have hmb : ∃ b, m = some b := by
            cases m with
            | none => exact absurd (isNil_iff.mpr (wfN_none hw)) hnil
            | some b => exact ⟨b, rfl⟩
          obtain ⟨b, rfl⟩ := hmb
          obtain ⟨hne, hh, hkids⟩ := wfN_some hw
          have hnodes : cs.allNodes = true :=
            allNodes_of_homog_internal hh (by simpa using hleaf) hne
          have he := wfEach_of_wfKids hkids
          obtain ⟨hsubC, hallA, heA, hE, hF⟩ :=
            delFindKids_wf C p hC cs (w, a, qu) hnodes he hk
          refine ⟨wfSub_mk_of_SubC hsubC hallA heA, ?_, ?_⟩
          · intro h0
            simp only [RNode.kids] at h0
            rcases hE h0 with h1 | h2
            · left
              simpa [RNode.mbrN] using h1
            · right
              exact h2
          · simpa [RNode.pts] using hF

theorem delFindKids_wf (C : ℕ) (p : Point) (hC : 2 ≤ C) :
    ∀ (cs : ChildList) (y : ChildList × ChildList × List Point),
      cs.allNodes = true → wfEach cs = true → delFindKids C cs p = some y →
      SubC y.2.1 y.1 ∧ y.2.1.allNodes = true ∧ wfEach y.2.1 = true ∧
        (y.2.1 = .nil → recompute y.1 = none ∨ y.2.2 ≠ []) ∧
        (p :: (y.2.1.ptsK ++ y.2.2)).Perm cs.ptsK
  | .nil, y, _, _, h => by simp [delFindKids] at h
  | .consP q r, y, hall, _, _ => by simp [ChildList.allNodes] at hall
  | .consN n r, y, hall, he, h => by
    simp only [ChildList.allNodes] at hall
    simp only [wfEach, Bool.and_eq_true] at he
    obtain ⟨⟨hs, hw⟩, her⟩ := he
    cases hb : n.mbrN with
    | none => rw [hb] at hs; simp at hs
    | some b =>
      simp only [delFindKids, hb] at h
      by_cases hi : b.intersectsB p.mbrOf = true
      · simp only [hi, if_true] at h
        rcases hn : delFindN C n p with _ | ⟨n1, quN⟩
        · simp only [hn] at h
          rcases hk : delFindKids C r p with _ | ⟨w2, a2, qu2⟩
          · simp [hk] at h
          · simp only [hk, Option.some_inj] at h
            subst h
            obtain ⟨hS, hA, hE2, hEE, hP⟩ :=
              delFindKids_wf C p hC r (w2, a2, qu2) hall her hk
            refine ⟨SubC.consN n hS, ?_, ?_, ?_, ?_⟩
            · simpa [ChildList.allNodes] using hA
            · simp only [wfEach, Bool.and_eq_true]
              exact ⟨⟨hs, hw⟩, hE2⟩
            · intro h0
              exact absurd h0 (by simp)
            · simp only [ChildList.ptsK]
              refine (((perm_assoc n.pts a2.ptsK qu2).symm.cons p).trans
                List.perm_middle.symm).trans ?_
              exact List.Perm.append_left n.pts hP
        · simp only [hn] at h
          obtain ⟨hsubN, hEn, hFn⟩ := delFindN_wf C p hC n (n1, quN) hw hn
          by_cases hdet : n1.kids.numK < C / 2
          · rw [if_pos hdet, Option.some_inj] at h
            subst h
            refine ⟨SubC.skipN n1 (SubC_refl r), hall, her, ?_, ?_⟩
            · intro h0
              subst h0
              by_cases hq : quN ++ n1.pts = []
              · left
                have hq1 : quN = [] := by
                  cases hqq : quN with
                  | nil => rfl
                  | cons z zs => rw [hqq] at hq; simp at hq
                have hq2 : n1.pts = [] := by
                  rw [hq1] at hq
                  simpa using hq
                have hknil : n1.kids = .nil := by
                  by_contra hkne
                  have hwn1 : wfN n1 = true :=
                    wfN_of_wfSub hsubN (fun h1 => absurd h1 hkne)
                  exact (pts_ne_nil_N n1 hwn1 (hsubN.2.2.2 hkne)) hq2
                rcases hEn hknil with hm1 | hm2
                · simp [recompute, recomputeGo, hm1]
                · exact absurd hq1 hm2
              · right
                exact hq
            · simp only [ChildList.ptsK]
              have c1 : (r.ptsK ++ (quN ++ n1.pts)).Perm ((n1.pts ++ quN) ++ r.ptsK) :=
                (List.perm_append_comm).trans
                  ((List.perm_append_comm).append_right r.ptsK)
              exact (c1.cons p).trans (hFn.append_right r.ptsK)
          · rw [if_neg hdet, Option.some_inj] at h
            subst h
            have hhalf : 1 ≤ C / 2 := by omega
            have hkne : n1.kids ≠ .nil := by
              intro h0
              apply hdet
              have : n1.kids.numK = 0 := by rw [h0]; rfl
              omega
            have hwn1 : wfN n1 = true := wfN_of_wfSub hsubN (fun h1 => absurd h1 hkne)
            have hsm1 : n1.mbrN.isSome = true := hsubN.2.2.2 hkne
            refine ⟨SubC.consN n1 (SubC_refl r), ?_, ?_, ?_, ?_⟩
            · simpa [ChildList.allNodes] using hall
            · simp only [wfEach, Bool.and_eq_true]
              exact ⟨⟨hsm1, hwn1⟩, her⟩
            · intro h0
              exact absurd h0 (by simp)
            · simp only [ChildList.ptsK]
              have c1 : ((n1.pts ++ r.ptsK) ++ quN).Perm ((n1.pts ++ quN) ++ r.ptsK) :=
                ((perm_assoc n1.pts r.ptsK quN).symm.trans
                  (List.Perm.append_left n1.pts List.perm_append_comm)).trans
                  (perm_assoc n1.pts quN r.ptsK)
              exact (c1.cons p).trans (hFn.append_right r.ptsK)
      · simp only [Bool.not_eq_true] at hi
        simp only [hi, Bool.false_eq_true, if_false] at h
        rcases hk : delFindKids C r p with _ | ⟨w2, a2, qu2⟩
        · simp [hk] at h
        · simp only [hk, Option.some_inj] at h
          subst h
          obtain ⟨hS, hA, hE2, hEE, hP⟩ :=
            delFindKids_wf C p hC r (w2, a2, qu2) hall her hk
          refine ⟨SubC.consN n hS, ?_, ?_, ?_, ?_⟩
          · simpa [ChildList.allNodes] using hA
          · simp only [wfEach, Bool.and_eq_true]
            exact ⟨⟨hs, hw⟩, hE2⟩
          · intro h0
            exact absurd h0 (by simp)
          · simp only [ChildList.ptsK]
            refine (((perm_assoc n.pts a2.ptsK qu2).symm.cons p).trans
              List.perm_middle.symm).trans ?_
            exact List.Perm.append_left n.pts hP
end

/-! ## Deletion finds a positive-radius stored point -/

mutual
theorem delFindN_isSome (C : ℕ) (p : Point) (hr : 0 < p.radius) :
    ∀ n : RNode, wfN n = true → p ∈ n.pts → (delFindN C n p).isSome = true
  | .mk cs m, hw, hp => by
    cases m with
    | none =>
      have h0 := wfN_none hw
      subst h0
      simp [RNode.pts, ChildList.ptsK] at hp
    | some b =>
      obtain ⟨hne, hh, hk⟩ := wfN_some hw
      have hnil : cs.isNil = false := by
        cases cs with
        | nil => exact absurd rfl hne
        | consP _ _ => rfl
        | consN _ _ => rfl
      cases hlf : cs.isLeafK with
      | true =>
        have hallP := allPts_of_homog_leaf hh hlf
        have hcont := mem_containsP hallP (by simpa [RNode.pts] using hp)
        simp [delFindN, hnil, hlf, hcont]
      | false =>
        have hnodes := allNodes_of_homog_internal hh hlf hne
        have he := wfEach_of_wfKids hk
        have hrec := delFindKids_isSome C p hr cs hnodes he (by simpa [RNode.pts] using hp)
        rcases hks : delFindKids C cs p with _ | ⟨w, a, qu⟩
        · rw [hks] at hrec; simp at hrec
        · simp [delFindN, hnil, hlf, hks]

theorem delFindKids_isSome (C : ℕ) (p : Point) (hr : 0 < p.radius) :
    ∀ cs : ChildList, cs.allNodes = true → wfEach cs = true → p ∈ cs.ptsK →
      (delFindKids C cs p).isSome = true
  | .nil, _, _, hp => by simp [ChildList.ptsK] at hp
  | .consP q r, hall, _, _ => by simp [ChildList.allNodes] at hall
  | .consN n r, hall, he, hp => by
    simp only [ChildList.allNodes] at hall
    simp only [wfEach, Bool.and_eq_true] at he
    obtain ⟨⟨hs, hw⟩, her⟩ := he
    cases hb : n.mbrN with
    | none => rw [hb] at hs; simp at hs
    | some b =>
      simp only [ChildList.ptsK, List.mem_append] at hp
      rcases hp with hp | hp
      · obtain ⟨b2, hb2, hcov⟩ := pts_covered_N n hw p hp
        rw [hb, Option.some_inj] at hb2
        subst hb2
        have hint : b.intersectsB p.mbrOf = true := covers_intersects_of_pos hcov hr
        have hsome := delFindN_isSome C p hr n hw hp
        rcases hn : delFindN C n p with _ | ⟨n1, quN⟩
        · rw [hn] at hsome; simp at hsome
        · by_cases hdet : n1.kids.numK < C / 2
          · simp [delFindKids, hb, hint, hn, hdet]
          · simp [delFindKids, hb, hint, hn, hdet]
      · rcases hn : delFindN C n p with _ | ⟨n1, quN⟩
        · have hrec := delFindKids_isSome C p hr r hall her hp
          rcases hk : delFindKids C r p with _ | ⟨w2, a2, qu2⟩
          · rw [hk] at hrec; simp at hrec
          · by_cases hint : b.intersectsB p.mbrOf = true
            · simp [delFindKids, hb, hint, hn, hk]
            · simp [delFindKids, hb, hint, hk]
        · by_cases hint : b.intersectsB p.mbrOf = true
          · by_cases hdet : n1.kids.numK < C / 2
            · simp [delFindKids, hb, hint, hn, hdet]
            · simp [delFindKids, hb, hint, hn, hdet]
          · have hrec := delFindKids_isSome C p hr r hall her hp
            rcases hk : delFindKids C r p with _ | ⟨w2, a2, qu2⟩
            · rw [hk] at hrec; simp at hrec
            · simp [delFindKids, hb, hint, hk]
end

/-! ## Assembling the full delete -/

theorem collapseRoot_wf {r : RNode} (h : wfN r = true) : wfN (collapseRoot r) = true := by
  cases r with
  | mk cs m =>
    cases cs with
    | nil => simpa [collapseRoot] using h
    | consP q t => simpa [collapseRoot] using h
    | consN n t =>
      cases t with
      | nil =>
        cases m with
        | none => exact absurd (wfN_none h) (by simp)
        | some b =>
          obtain ⟨-, -, hk⟩ := wfN_some h
          simp only [wfKids, Bool.and_eq_true] at hk
          obtain ⟨hh2, he2, -, -⟩ := wfSub_of_wfN hk.1.2
          cases n with
          | mk cs2 m2 =>
            simpa [collapseRoot, RNode.kids] using wfN_recompute hh2 he2
      | consP _ _ => simpa [collapseRoot] using h
      | consN _ _ => simpa [collapseRoot] using h

theorem foldl_insert_wfSub {C : ℕ} (hC : 2 ≤ C) :
    ∀ (qs : List Point) (t : RNode), wfSub t →
      wfSub (qs.foldl (fun a q => insertOp C a q) t)
  | [], t, h => h
  | q :: qs, t, h => by
    simp only [List.foldl_cons]
    exact foldl_insert_wfSub hC qs _ (wfSub_of_wfN (insertOp_wf hC t q h))

theorem foldl_insert_pts {C : ℕ} (hC : 2 ≤ C) :
    ∀ (qs : List Point) (t : RNode), wfSub t →
      (qs.foldl (fun a q => insertOp C a q) t).pts.Perm (qs ++ t.pts)
  | [], t, _ => List.Perm.refl _
  | q :: qs, t, h => by
    simp only [List.foldl_cons]
    have ih := foldl_insert_pts hC qs (insertOp C t q) (wfSub_of_wfN (insertOp_wf hC t q h))
    refine ih.trans ?_
    refine (List.Perm.append_left qs (insertOp_pts hC t q h)).trans ?_
    exact List.perm_middle

theorem deleteOp_wf {C : ℕ} (hC : 2 ≤ C) (t : RNode) (p : Point) (h : wfN t = true) :
    wfN (deleteOp C t p) = true := by
  simp only [deleteOp]
  rcases hf : delFindN C t p with _ | ⟨r1, qu⟩
  · exact collapseRoot_wf h
  · obtain ⟨hsub1, -, -⟩ := delFindN_wf C p hC t (r1, qu) h hf
    obtain ⟨hh2, he2, -, -⟩ := foldl_insert_wfSub hC qu.reverse r1 hsub1
    exact collapseRoot_wf (wfN_recompute hh2 he2)

theorem deleteOp_pts_found {C : ℕ} (hC : 2 ≤ C) {t : RNode} {p : Point}
    (h : wfN t = true) (hp : p ∈ t.pts) (hr : 0 < p.radius) :
    (p :: (deleteOp C t p).pts).Perm t.pts := by
  have hsome := delFindN_isSome C p hr t h hp
  rcases hf : delFindN C t p with _ | ⟨r1, qu⟩
  · rw [hf] at hsome; simp at hsome
  · obtain ⟨hsub1, -, hF⟩ := delFindN_wf C p hC t (r1, qu) h hf
    have hpts2 := foldl_insert_pts hC qu.reverse r1 hsub1
    simp only [deleteOp, hf]
    rw [collapseRoot_pts]
    have hkids : (RNode.mk (qu.reverse.foldl (fun a q => insertOp C a q) r1).kids
        (recompute (qu.reverse.foldl (fun a q => insertOp C a q) r1).kids)).pts
        = (qu.reverse.foldl (fun a q => insertOp C a q) r1).pts := by
      simp [RNode.pts, ptsK_eq_pts]
    rw [hkids]
    have hX : (qu.reverse ++ r1.pts).Perm (r1.pts ++ qu) :=
      ((List.reverse_perm qu).append_right r1.pts).trans List.perm_append_comm
    exact ((hpts2.trans hX).cons p).trans hF
/-! ## Range query equals the brute-force filter on well-formed trees -/

mutual
theorem rq_filter (q : MBR) :
    ∀ n : RNode, wfN n = true →
      rq n q = some (n.pts.filter (fun a => a.mbrOf.intersectsB q))
  | .mk cs m, hw => by
    cases hlf : cs.isLeafK with
    | true =>
      have hh : homogB cs = true := by
        cases m with
        | none =>
          have h0 := wfN_none hw
          subst h0
          simp [ChildList.isLeafK] at hlf
        | some b => exact (wfN_some hw).2.1
      have hallP := allPts_of_homog_leaf hh hlf
      simp only [rq, hlf, if_true, RNode.pts]
      exact rqLeaf_filter q cs hallP
    | false =>
      cases m with
      | none =>
        have h0 := wfN_none hw
        subst h0
        simp [rq, rqKids, RNode.pts, ChildList.ptsK, ChildList.isLeafK]
      | some b =>
        obtain ⟨hne, hh, hk⟩ := wfN_some hw
        have hnodes := allNodes_of_homog_internal hh hlf hne
        have he := wfEach_of_wfKids hk
        simp only [rq, hlf, Bool.false_eq_true, if_false, RNode.pts]
        exact rqKids_filter q cs hnodes he

theorem rqLeaf_filter (q : MBR) :
    ∀ cs : ChildList, cs.allPts = true →
      rqLeaf cs q = some (cs.ptsK.filter (fun a => a.mbrOf.intersectsB q))
  | .nil, _ => rfl
  | .consP p r, hall => by
    simp only [ChildList.allPts] at hall
    have ih := rqLeaf_filter q r hall
    simp only [rqLeaf, ih, ChildList.ptsK, List.filter_cons]
  | .consN n r, hall => by simp [ChildList.allPts] at hall

theorem rqKids_filter (q : MBR) :
    ∀ cs : ChildList, cs.allNodes = true → wfEach cs = true →
      rqKids cs q = some (cs.ptsK.filter (fun a => a.mbrOf.intersectsB q))
  | .nil, _, _ => rfl
  | .consP p r, hall, _ => by simp [ChildList.allNodes] at hall
  | .consN n r, hall, he => by
    simp only [ChildList.allNodes] at hall
    simp only [wfEach, Bool.and_eq_true] at he
    obtain ⟨⟨hs, hw⟩, her⟩ := he
    cases hb : n.mbrN with
    | none => rw [hb] at hs; simp at hs
    | some b =>
      have ihr := rqKids_filter q r hall her
      by_cases hint : b.intersectsB q = true
      · have ihn := rq_filter q n hw
        simp only [rqKids, hb, hint, if_true, ihn, ihr, ChildList.ptsK,
          List.filter_append]
      · have hint2 : b.intersectsB q = false := by
          cases hbq : b.intersectsB q with
          | false => rfl
          | true => exact absurd hbq hint
        have hnil : n.pts.filter (fun a => a.mbrOf.intersectsB q) = [] := by
          rw [List.filter_eq_nil_iff]
          intro a ha
          obtain ⟨b2, hb2, hcov⟩ := pts_covered_N n hw a ha
          rw [hb, Option.some_inj] at hb2
          subst hb2
          simp [not_intersectsB_anti hcov hint2]
        simp only [rqKids, hb, hint2, Bool.false_eq_true, if_false, ihr,
          ChildList.ptsK, List.filter_append, hnil, List.nil_append]
end

/-! ## Bulk load preserves well-formedness -/

theorem mkLeaf_wf {grp : List Point} (hg : grp ≠ []) :
    wfN (mkLeaf grp) = true ∧ (mkLeaf grp).mbrN.isSome = true := by
  have hall : (ofListC (grp.map .inl)).allPts = true := by
    rw [allPts_iff]
    intro c hc
    rw [toListC_ofListC] at hc
    simp only [List.mem_map] at hc
    obtain ⟨a, -, rfl⟩ := hc
    exact ⟨a, rfl⟩
  have hne : ofListC (grp.map .inl) ≠ .nil := by
    apply ofListC_ne_nil
    simpa using hg
  constructor
  · exact wfN_recompute (by simp [homogB, hall]) (wfEach_of_allPts hall)
  · simpa [mkLeaf, RNode.mbrN] using recompute_isSome (wfEach_of_allPts hall) hne

theorem splitSizes_ne_nil {sizes : List ℕ} :
    ∀ {l : List α}, (∀ s ∈ sizes, 1 ≤ s) → sizes.sum ≤ l.length →
      ∀ g ∈ splitSizes l sizes, g ≠ [] := by
  induction sizes with
  | nil => intro l _ _ g hg; simp [splitSizes] at hg
  | cons s rest ih =>
    intro l hpos hsum g hg
    simp only [splitSizes, List.mem_cons] at hg
    simp only [List.sum_cons] at hsum
    rcases hg with rfl | hg
    · have hs := hpos s (by simp)
      intro h0
      have h1 : (l.take s).length = 0 := by rw [h0]; rfl
      rw [List.length_take] at h1
      omega
    · refine ih (fun x hx => hpos x (by simp [hx])) ?_ g hg
      rw [List.length_drop]
      omega

theorem evenSizes_pos_sum (total C : ℕ) (h2 : 2 ≤ total) (hC : 1 ≤ C) :
    (∀ s ∈ (List.range (ceilDiv total C)).map
        (fun i => total / ceilDiv total C + if i < total % ceilDiv total C then 1 else 0),
      1 ≤ s) ∧
    ((List.range (ceilDiv total C)).map
        (fun i => total / ceilDiv total C +
          if i < total % ceilDiv total C then 1 else 0)).sum = total := by
  have hnum1 : 1 ≤ ceilDiv total C := ceilDiv_pos (by omega) hC
  have hnumle : ceilDiv total C ≤ total := ceilDiv_le hC
  have hbase : 1 ≤ total / ceilDiv total C := (Nat.one_le_div_iff (by omega)).mpr hnumle
  constructor
  · intro s hs
    simp only [List.mem_map] at hs
    obtain ⟨i, -, rfl⟩ := hs
    by_cases hi : i < total % ceilDiv total C
    · rw [if_pos hi]
      omega
    · rw [if_neg hi]
      omega
  · rw [evenSizes_sum]
    have hrem : total % ceilDiv total C < ceilDiv total C := Nat.mod_lt _ (by omega)
    have hmin : min (total % ceilDiv total C) (ceilDiv total C)
        = total % ceilDiv total C := by omega
    rw [hmin]
    have hdm := Nat.div_add_mod total (ceilDiv total C)
    omega

theorem buildLevels_wf {C : ℕ} (hC : 2 ≤ C) :
    ∀ (fuel : ℕ) (ns : List RNode) (r : RNode),
      (∀ n ∈ ns, wfN n = true ∧ n.mbrN.isSome = true) →
      buildLevels C fuel ns = some r → wfN r = true := by
  intro fuel
  induction fuel with
  | zero => intro ns r _ h; simp [buildLevels] at h
  | succ fuel ih =>
    intro ns r hall h
    match ns with
    | [n] =>
      simp only [buildLevels, Option.some_inj] at h
      subst h
      exact (hall n (by simp)).1
    | [] => simp [buildLevels] at h
    | n1 :: n2 :: rest =>
      simp only [buildLevels] at h
      apply ih _ _ _ h
      intro n hn
      simp only [List.mem_map] at hn
      obtain ⟨grp, hgrp, rfl⟩ := hn
      obtain ⟨hpos, hsum⟩ :=
        evenSizes_pos_sum (n1 :: n2 :: rest).length C (by simp) (by omega)
      have hgne : grp ≠ [] := splitSizes_ne_nil hpos (by omega) grp hgrp
      have hmem : ∀ x ∈ grp, x ∈ n1 :: n2 :: rest :=
        fun x hx => splitSizes_mem grp hgrp x hx
      have hnodes : (ofListC (grp.map .inr)).allNodes = true := by
        rw [allNodes_iff]
        intro c hc
        rw [toListC_ofListC] at hc
        simp only [List.mem_map] at hc
        obtain ⟨a, -, rfl⟩ := hc
        exact ⟨a, rfl⟩
      have heach : wfEach (ofListC (grp.map .inr)) = true := by
        rw [wfEach_iff]
        intro m hm
        rw [toListC_ofListC] at hm
        simp only [List.mem_map, Sum.inr.injEq] at hm
        obtain ⟨m2, hm2, rfl⟩ := hm
        exact ⟨(hall m2 (hmem m2 hm2)).2, (hall m2 (hmem m2 hm2)).1⟩
      have hne : ofListC (grp.map .inr) ≠ .nil := by
        apply ofListC_ne_nil
        simpa using hgne
      constructor
      · exact wfN_recompute (by simp [homogB, hnodes]) heach
      · simpa [RNode.mbrN] using recompute_isSome heach hne

theorem bulkLoad_wf {C : ℕ} (hC : 2 ≤ C) {cur : RNode} {pts : List Point} {r : RNode}
    {l : List Point} (hcur : wfN cur = true) (h : bulkLoad C cur pts = .ok r l) :
    wfN r = true := by
  simp only [bulkLoad] at h
  split at h
  · cases h; exact hcur
  · split at h
    · cases h
    · split at h
      · rename_i root hb
        cases h
        refine buildLevels_wf hC _ _ _ ?_ hb
        intro n hn
        unfold blLeaves at hn
        simp only [List.mem_flatMap, List.mem_map] at hn
        obtain ⟨sl, -, g, hg, rfl⟩ := hn
        simp only [chunks] at hg
        exact mkLeaf_wf (chunksGo_ne_nil g hg)
      · cases h

/-! ## All reachable trees are well formed -/

theorem reachable_two {C : ℕ} {t : RNode} (h : Reachable C t) : 2 ≤ C := by
  induction h with
  | fresh h2 => exact h2
  | bulk _ _ ih => exact ih
  | ins p _ ih => exact ih
  | del p _ ih => exact ih

theorem reachable_wf {C : ℕ} {t : RNode} (h : Reachable C t) : wfN t = true := by
  have hC := reachable_two h
  induction h with
  | fresh _ => rfl
  | bulk _ hbl ih => exact bulkLoad_wf hC ih hbl
  | ins p _ ih => exact insertOp_wf hC _ p (wfSub_of_wfN ih)
  | del p _ ih => exact deleteOp_wf hC _ p ih

/-! ## The claims -/

/-- Claim C1, counterexample: on a fresh capacity-4 index, bulk loading
twenty entities and then deleting (0,40,1) and (0,50,1) leaves a tree in
which some cached box differs from the union of the boxes of the
children: condensation detaches an underfull leaf without refreshing the
box of its former parent, and the reinsertion is routed into the sibling
branch (whose box also contains the queued entity and is scanned later),
so the stale box survives. -/
theorem C1_counterexample : c1exact = some false := by decide

/-- Claim C1, amended: after any sequence of bulk loads and inserts (no
deletes), the cached box of every node equals exactly the recomputed
union of the boxes of its children, entity-derived for leaves and cached
for node children.  Deletes can break the invariant, as the
counterexample shows. -/
theorem C1_amended {C : ℕ} {t : RNode} (h : ReachableBI C t) : exactN t = true := by
  induction h with
  | fresh _ => decide
  | bulk _ hbl ih => exact bulkLoad_exact ih hbl
  | ins p _ ih => exact insertOp_exact _ _ p ih

/-- Witness for the amended claim C1 on a reachable tree: a fresh
capacity-2 index after one bulk load and one insert. -/
theorem C1_amended_witness :
    ReachableBI 2 (insertOp 2 freshRoot ⟨0, 0, 1⟩) ∧
      exactN (insertOp 2 freshRoot ⟨0, 0, 1⟩) = true :=
  ⟨ReachableBI.ins ⟨0, 0, 1⟩ (ReachableBI.fresh (by omega)),
   C1_amended (ReachableBI.ins ⟨0, 0, 1⟩ (ReachableBI.fresh (by omega)))⟩

/-- Claim C2: on every tree reachable by the public operations (bulk
load, insert and delete from a fresh index with capacity at least two)
and for every query box, the range query succeeds and returns exactly
the stored entities whose derived box strictly intersects the query box:
the same list the brute-force intersection filter over `all_points()`
produces, hence in particular the same multiset, with no further
ordering guarantee claimed. -/
theorem C2_range_query {C : ℕ} {t : RNode} (h : Reachable C t) (q : MBR) :
    rq t q = some (t.pts.filter (fun a => a.mbrOf.intersectsB q)) :=
  rq_filter q t (reachable_wf h)

/-- Witness for claim C2 at a concrete reachable tree: a fresh
capacity-2 index after one insert of (0,0,1), queried with the box
(-2,-2,2,2); the query returns exactly the brute-force filter, here the
single stored entity. -/
theorem C2_range_query_witness :
    rq (insertOp 2 freshRoot ⟨0, 0, 1⟩) (MBR.mk (-2) (-2) 2 2)
        = some ((insertOp 2 freshRoot ⟨0, 0, 1⟩).pts.filter
          (fun a => a.mbrOf.intersectsB (MBR.mk (-2) (-2) 2 2)))
      ∧ ((insertOp 2 freshRoot ⟨0, 0, 1⟩).pts.filter
          (fun a => a.mbrOf.intersectsB (MBR.mk (-2) (-2) 2 2))) = [⟨0, 0, 1⟩] :=
  ⟨C2_range_query (Reachable.ins ⟨0, 0, 1⟩ (Reachable.fresh (by omega)))
    (MBR.mk (-2) (-2) 2 2), by decide⟩

/-- Claim C3: bulk loading any entity list (including the empty one)
into a fresh index with a capacity of at least two returns normally and
indexes exactly the input multiset: the traversal of the built tree is a
permutation of the supplied list. -/
theorem C3_bulk_load_round_trip (C : ℕ) (pts : List Point) (hC : 2 ≤ C) :
    ∃ r l, bulkLoad C freshRoot pts = .ok r l ∧ r.pts.Perm pts := by
  by_cases he : pts.isEmpty
  · have hnil : pts = [] := List.isEmpty_iff.mp he
    subst hnil
    exact ⟨freshRoot, [], by simp [bulkLoad], List.Perm.refl _⟩
  · have he' : pts.isEmpty = false := by simpa using he
    have hpts : pts ≠ [] := by
      intro h0
      rw [h0] at he'
      simp at he'
    have hsp : (stableSort xLe pts).Perm pts := stableSort_perm xLe pts
    have hslen : (stableSort xLe pts).length = pts.length := hsp.length_eq
    have hsne : stableSort xLe pts ≠ [] := by
      intro h0
      rw [h0] at hslen
      exact hpts (List.eq_nil_of_length_eq_zero hslen.symm)
    obtain ⟨r, hr⟩ := buildLevels_some hC ((stableSort xLe pts).length + 1)
      (blLeaves C (stableSort xLe pts))
      (blLeaves_pos (by omega) hsne)
      (by have := blLeaves_length_le (show 1 ≤ C by omega) (stableSort xLe pts); omega)
    refine ⟨r, stableSort xLe pts, ?_, ?_⟩
    · simp only [bulkLoad, he', Bool.false_eq_true, if_false]
      rw [if_neg (show ¬ C = 0 by omega)]
      rw [hr]
    · have h1 := buildLevels_pts (show 1 ≤ C by omega) _ _ _ hr
      rw [h1]
      exact (blLeaves_flatten_perm (by omega) _).trans hsp

/-- Witness for claim C3 at capacity 2 on a one-entity list. -/
theorem C3_witness :
    (2 : ℕ) ≤ 2 ∧
      ∃ r l, bulkLoad 2 freshRoot [⟨0, 0, 0⟩] = .ok r l ∧ r.pts.Perm [⟨0, 0, 0⟩] :=
  ⟨le_rfl, C3_bulk_load_round_trip 2 [⟨0, 0, 0⟩] le_rfl⟩

/-- Claim C4, counterexample: on the reachable capacity-2 tree over
{(0,0,0),(1,0,0),(2,0,0)}, inserting the zero-radius entity (5,5,0) and
then deleting it does not restore the indexed multiset: the freshly
inserted entity sits on the boundary of the box of its leaf, the strict
intersection test of the find prunes that leaf, the delete is a silent
no-op, and all four entities remain indexed. -/
theorem C4_counterexample : c4cancels = some false := by decide

/-- Claim C4, amended: for every reachable starting tree and every
entity of positive radius, insert followed by delete of that entity
restores `all_points()` as a multiset.  The restriction to positive
radius is necessary: the counterexample shows a zero-radius entity whose
derived box only touches the boundary of the box of its leaf, so the
strict intersection test of `_find_leaf` prunes every path and the
delete is a silent no-op. -/
theorem C4_amended {C : ℕ} {t : RNode} (h : Reachable C t) {e : Point}
    (hr : 0 < e.radius) :
    ((deleteOp C (insertOp C t e) e).pts).Perm t.pts := by
  have hC := reachable_two h
  have hw := reachable_wf h
  have hsub := wfSub_of_wfN hw
  have h1 : wfN (insertOp C t e) = true := insertOp_wf hC t e hsub
  have hp : (insertOp C t e).pts.Perm (e :: t.pts) := insertOp_pts hC t e hsub
  have hmem : e ∈ (insertOp C t e).pts := hp.mem_iff.mpr (by simp)
  have h2 : (e :: (deleteOp C (insertOp C t e) e).pts).Perm (insertOp C t e).pts :=
    deleteOp_pts_found hC h1 hmem hr
  exact (h2.trans hp).cons_inv

/-- Witness for the amended claim C4: on a fresh capacity-2 index the
pair insert/delete of the radius-1 entity (0,0,1) restores the empty
entity multiset. -/
theorem C4_amended_witness :
    Reachable 2 freshRoot ∧ (0 : ℤ) < (1 : ℤ) ∧
      ((deleteOp 2 (insertOp 2 freshRoot ⟨0, 0, 1⟩) ⟨0, 0, 1⟩).pts).Perm freshRoot.pts :=
  ⟨Reachable.fresh (by omega), by decide,
    C4_amended (Reachable.fresh (by omega)) (by decide)⟩

/-- Claim C5, counterexample: scanning two node children whose boxes
both include the extent of (5,5,0), the first containing child (box
(0,0,10,10), index 0) does not win: the scan keeps overwriting the
chosen child, so the second containing child (index 1) is selected. -/
theorem C5_counterexample :
    childContains ((toListC c5kids)[0]?.getD (.inl ⟨0, 0, 0⟩)) ⟨5, 5, 0⟩ = true ∧
      chooseScan c5kids ⟨5, 5, 0⟩ ≠ some 0 ∧ chooseScan c5kids ⟨5, 5, 0⟩ = some 1 := by
  refine ⟨by decide, by decide, by decide⟩

/-- Claim C5, amended: during the scan of the children of an internal
node, the LAST child whose box fully contains the extent of the entity
is selected, overriding every earlier candidate (containing or not);
once some containing child has been seen, no later non-containing child
can be selected, because an enlargement is never negative. -/
theorem C5_amended {cs : ChildList} {p : Point} {i : ℕ} {c : Sum Point RNode}
    (hget : (toListC cs)[i]? = some c) (hc : childContains c p = true)
    (hlast : ∀ j d, i < j → (toListC cs)[j]? = some d → childContains d p = false) :
    chooseScan cs p = some i := by
  simpa using chooseGo_last_contains p cs i 0 none none c hget hc hlast

/-- Witness for the amended claim C5 at the two-child scan: index 1
holds the last containing child and is selected. -/
theorem C5_amended_witness :
    (toListC c5kids)[1]? =
        some (.inr (.mk (.consP ⟨2, 2, 0⟩ .nil) (some ⟨0, 0, 20, 20⟩))) ∧
      chooseScan c5kids ⟨5, 5, 0⟩ = some 1 := by
  refine ⟨by decide, C5_amended (c := .inr (.mk (.consP ⟨2, 2, 0⟩ .nil) (some ⟨0, 0, 20, 20⟩)))
    (by decide) (by decide) ?_⟩
  intro j d hj hg
  have hlen : (toListC c5kids).length = 2 := by decide
  rw [List.getElem?_eq_none (by omega)] at hg
  cases hg

/-- Claim C6, counterexample: the scenario tree does hold the four
entities in one leaf, but the range query over the box (0,0,2,2)
returns the empty list, not {(0,0,0),(1,0,0)}: both candidate entities
have zero radius and lie on the boundary of the query box, and the
strict intersection test excludes touching boxes. -/
theorem C6_counterexample :
    c6res = some (some []) ∧ ¬ (([] : List Point).Perm [⟨0, 0, 0⟩, ⟨1, 0, 0⟩]) := by
  refine ⟨by decide, by decide⟩

/-- Claim C6, amended: bulk loading {(0,0,0),(1,0,0),(10,10,0),(11,11,0)}
at capacity 4 yields a single leaf with box (0,0,11,11), and the range
query with box (0,0,2,2) returns the empty list, because the two nearby
entities only touch the query box and the intersection test is strict. -/
theorem C6_amended :
    c6root = some (RNode.mk
      (.consP ⟨0, 0, 0⟩ (.consP ⟨1, 0, 0⟩ (.consP ⟨10, 10, 0⟩ (.consP ⟨11, 11, 0⟩ .nil))))
      (some ⟨0, 0, 11, 11⟩)) ∧
      c6res = some (some []) := by
  refine ⟨by decide, by decide⟩

/-- Claim C7, counterexample: calling bulk load with capacity 1 (which
is below 2) on a single entity does not fail: it returns normally and
builds a one-leaf tree.  No capacity precondition is checked. -/
theorem C7_counterexample :
    bulkLoad 1 freshRoot [⟨0, 0, 0⟩] =
      .ok (RNode.mk (.consP ⟨0, 0, 0⟩ .nil) (some ⟨0, 0, 0, 0⟩)) [⟨0, 0, 0⟩] := by
  decide

/-- Claim C7, amended: bulk load performs no capacity validation.  With
capacity 1 and a single entity the call completes normally and builds a
one-leaf tree; with capacity 1 and at least two entities the
level-grouping loop never terminates, at any fuel, because each level
keeps its size; with capacity 0 and a nonempty list the call dies with
an unchecked division by zero; only these failure modes exist, none of
them a detected-and-reported precondition violation. -/
theorem C7_amended :
    (∀ p : Point, bulkLoad 1 freshRoot [p]
        = .ok (RNode.mk (.consP p .nil) (some p.mbrOf)) [p]) ∧
    (∀ (cur : RNode) (pts : List Point), 2 ≤ pts.length → bulkLoad 1 cur pts = .diverged) ∧
    (∀ (fuel : ℕ) (ns : List RNode), 2 ≤ ns.length → buildLevels 1 fuel ns = none) ∧
    (∀ (cur : RNode) (pts : List Point), pts ≠ [] → bulkLoad 0 cur pts = .zeroDiv) := by
  refine ⟨?_, ?_, buildLevels_one_none, ?_⟩
  · intro p
    have h2 : blLeaves 1 [p] = [mkLeaf [p]] := by
      simp [blLeaves, ceilDiv, ceilSqrt, ceilSqrtGo, chunks, chunksGo, stableSort, insSorted,
        List.range_succ]
    have h1 : stableSort xLe [p] = [p] := rfl
    simp only [bulkLoad, h1, h2]
    rfl
  · intro cur pts hlen
    have he' : pts.isEmpty = false := by
      cases pts with
      | nil => simp at hlen
      | cons a r => rfl
    simp only [bulkLoad, he', Bool.false_eq_true, if_false]
    rw [if_neg (show ¬ (1 : ℕ) = 0 by omega)]
    have hslen : (stableSort xLe pts).length = pts.length := (stableSort_perm xLe pts).length_eq
    have hlblen : 2 ≤ (blLeaves 1 (stableSort xLe pts)).length := by
      have hperm := (blLeaves_flatten_perm le_rfl (stableSort xLe pts)).length_eq
      have hle := flatten_length_le (L := (blLeaves 1 (stableSort xLe pts)).map RNode.pts)
        (blLeaves_pts_len_le le_rfl)
      rw [List.length_map] at hle
      omega
    rw [buildLevels_one_none _ _ hlblen]
  · intro cur pts hne
    have he' : pts.isEmpty = false := by
      cases pts with
      | nil => exact absurd rfl hne
      | cons a r => rfl
    simp [bulkLoad, he']

/-- Witness for the amended claim C7 at concrete calls. -/
theorem C7_amended_witness :
    bulkLoad 1 freshRoot [⟨0, 0, 0⟩]
        = .ok (RNode.mk (.consP ⟨0, 0, 0⟩ .nil) (some ⟨0, 0, 0, 0⟩)) [⟨0, 0, 0⟩] ∧
      bulkLoad 1 freshRoot [⟨0, 0, 0⟩, ⟨1, 0, 0⟩] = .diverged ∧
      buildLevels 1 5 [freshRoot, freshRoot] = none ∧
      bulkLoad 0 freshRoot [⟨0, 0, 0⟩] = .zeroDiv :=
  ⟨C7_amended.1 ⟨0, 0, 0⟩, C7_amended.2.1 freshRoot _ (by simp),
   C7_amended.2.2.1 5 _ (by simp), C7_amended.2.2.2 freshRoot _ (by simp)⟩

/-- Claim C8, counterexample: with capacity 5, deleting (10,0,1) from
the six-entity tree leaves the visited leaf with two children; two is
below the claimed threshold of three (the ceiling of 5/2), yet the leaf
stays attached to the root, because the source compares against the
floor 5 div 2 = 2. -/
theorem C8_counterexample :
    c8after = some (RNode.mk
      (.consN (.mk (.consP ⟨0, 0, 1⟩ (.consP ⟨20, 0, 1⟩ .nil)) (some ⟨-1, -1, 21, 1⟩))
        (.consN (.mk (.consP ⟨30, 0, 1⟩ (.consP ⟨40, 0, 1⟩ (.consP ⟨50, 0, 1⟩ .nil)))
          (some ⟨29, -1, 51, 1⟩)) .nil))
      (some ⟨-1, -1, 51, 1⟩)) ∧
      2 < (5 + 1) / 2 := by
  refine ⟨by decide, by omega⟩

/-- Claim C8, amended: the condensation threshold is the floor of
capacity / 2, and the queued entities are reinserted in reverse
collection order.  With capacity 5: a visited leaf left with two
children (below the ceiling 3 but not below the floor 2) is kept; a
further delete dropping it to one child (below the floor) detaches it
and reinserts its remaining entity through the standard insert.  With
capacity 4, deleting (0,0,1) from the three-level tree collects
(10,10,1) from the underfull leaf and then (20,20,1), (21,21,1) from the
detached parent, and the right-hand leaf receives them in reverse
collection order: (21,21,1), then (20,20,1), then (10,10,1). -/
theorem C8_amended :
    c8after2 = some (RNode.mk
      (.consP ⟨30, 0, 1⟩ (.consP ⟨40, 0, 1⟩ (.consP ⟨50, 0, 1⟩ (.consP ⟨20, 0, 1⟩ .nil))))
      (some ⟨19, -1, 51, 1⟩)) ∧
      deleteOp 4 c8rev ⟨0, 0, 1⟩ = RNode.mk
        (.consN (.mk (.consP ⟨50, 50, 1⟩ (.consP ⟨21, 21, 1⟩
            (.consP ⟨20, 20, 1⟩ (.consP ⟨10, 10, 1⟩ .nil))))
          (some ⟨9, 9, 51, 51⟩)) .nil)
        (some ⟨9, 9, 51, 51⟩) := by
  refine ⟨by decide, by decide⟩

/-- Claim C9, counterexample: after bulk loading five entities at
capacity 2 and deleting three of them, the root has exactly one node
child.  Deleting the absent entity (0,0,1) then mutates the tree: the
find fails, but the final root-collapse step of the delete still runs
and replaces the root by its single child.  The indexed points are
unchanged, the structure is not. -/
theorem C9_counterexample :
    c9absent = some (false, true) ∧
      (c9t.map (fun t => decide ((⟨0, 0, 1⟩ : Point) ∈ t.pts))) = some false := by
  refine ⟨by decide, by decide⟩

/-- Claim C9, amended: deleting an entity that is not indexed signals no
error and leaves the indexed points (hence `all_points`) unchanged; the
tree structure may still change, because the root-collapse step runs
even when nothing was found and removed. -/
theorem C9_amended (C : ℕ) (t : RNode) (p : Point) (h : p ∉ t.pts) :
    (deleteOp C t p).pts = t.pts := by
  rcases hf : delFindN C t p with _ | x
  · simp only [deleteOp, hf]
    exact collapseRoot_pts t
  · exact absurd (delFindN_mem t x hf) h

/-- Witness for the amended claim C9: deleting (0,0,0) from the fresh
empty tree is a no-op on the indexed points. -/
theorem C9_amended_witness :
    (⟨0, 0, 0⟩ : Point) ∉ freshRoot.pts ∧
      (deleteOp 2 freshRoot ⟨0, 0, 0⟩).pts = freshRoot.pts :=
  ⟨by decide, C9_amended 2 freshRoot ⟨0, 0, 0⟩ (by decide)⟩

/-- Claim C10: whenever bulk load returns normally, the caller-supplied
list has been permuted in place into ascending x order (Python sorts the
list itself; the slices are copies). -/
theorem C10_bulk_load_sorts_caller_list (C : ℕ) (cur : RNode) (pts : List Point)
    (r : RNode) (l : List Point) (h : bulkLoad C cur pts = .ok r l) :
    l.Perm pts ∧ l.Pairwise (fun a b => a.x ≤ b.x) := by
  simp only [bulkLoad] at h
  split at h
  · rename_i he
    obtain ⟨rfl, rfl⟩ : cur = r ∧ pts = l := by
      cases h; exact ⟨rfl, rfl⟩
    constructor
    · exact List.Perm.refl _
    · rcases pts with _ | ⟨a, rest⟩
      · simp
      · simp [List.isEmpty] at he
  · split at h
    · cases h
    · split at h
      · rename_i root hb
        obtain ⟨rfl, rfl⟩ : root = r ∧ stableSort xLe pts = l := by
          cases h; exact ⟨rfl, rfl⟩
        refine ⟨stableSort_perm xLe pts, ?_⟩
        have := stableSort_pairwise xLe
          (fun a b => by simp [xLe]; omega)
          (fun a b c h1 h2 => by simp [xLe] at *; omega) pts
        exact this.imp (fun h => by simpa [xLe] using h)
      · cases h

/-- Witness for claim C10 at a concrete call: bulk loading three
entities given in descending x order returns the caller list sorted
ascending. -/
theorem C10_witness :
    bulkLoad 2 freshRoot [⟨2, 0, 0⟩, ⟨0, 0, 0⟩, ⟨1, 0, 0⟩] =
        .ok (RNode.mk
          (.consN (.mk (.consP ⟨0, 0, 0⟩ (.consP ⟨1, 0, 0⟩ .nil)) (some ⟨0, 0, 1, 0⟩))
            (.consN (.mk (.consP ⟨2, 0, 0⟩ .nil) (some ⟨2, 0, 2, 0⟩)) .nil))
          (some ⟨0, 0, 2, 0⟩))
        [⟨0, 0, 0⟩, ⟨1, 0, 0⟩, ⟨2, 0, 0⟩] ∧
      ([⟨0, 0, 0⟩, ⟨1, 0, 0⟩, ⟨2, 0, 0⟩] : List Point).Perm
          [⟨2, 0, 0⟩, ⟨0, 0, 0⟩, ⟨1, 0, 0⟩] ∧
      ([⟨0, 0, 0⟩, ⟨1, 0, 0⟩, ⟨2, 0, 0⟩] : List Point).Pairwise (fun a b => a.x ≤ b.x) := by
  have h : bulkLoad 2 freshRoot [⟨2, 0, 0⟩, ⟨0, 0, 0⟩, ⟨1, 0, 0⟩] =
      .ok (RNode.mk
        (.consN (.mk (.consP ⟨0, 0, 0⟩ (.consP ⟨1, 0, 0⟩ .nil)) (some ⟨0, 0, 1, 0⟩))
          (.consN (.mk (.consP ⟨2, 0, 0⟩ .nil) (some ⟨2, 0, 2, 0⟩)) .nil))
        (some ⟨0, 0, 2, 0⟩))
      [⟨0, 0, 0⟩, ⟨1, 0, 0⟩, ⟨2, 0, 0⟩] := by decide
  exact ⟨h, (C10_bulk_load_sorts_caller_list 2 freshRoot _ _ _ h).1,
    (C10_bulk_load_sorts_caller_list 2 freshRoot _ _ _ h).2⟩

end RSpec
